import Mathlib

/-!
Verification of the `rat` repository: an LR(1) parser generator
(`src/libs/syntax_lsp_friendly_v208.py`) built on insertion-ordered
duplicate-free set containers (`src/libs/sequential_sets_v169.py`),
with the pluggable token scanners of `src/libs/token_parsers.py` and the
demo driver `src/rat.py`.

The Python code is shallowly embedded: every definition below mirrors a
specific Python function or method, named after it where possible.  The
insertion-ordered sets are embedded as Lean lists holding the container's
`values` list; the auxiliary `indexes` dict of the Python code always maps
each stored value to its position in `values` (every mutator re-establishes
this), so membership tests and `indexes.get` lookups are embedded as list
membership and `idxOf`.  Unbounded Python `while` loops are embedded with an
explicit fuel parameter; fuel exhaustion is an explicit outcome, distinct
from every outcome the Python code can produce.  Python exceptions are
embedded as `Except`/`Option` error results.
-/

namespace RatVerif

/-! ## Sequential sets (`src/libs/sequential_sets_v169.py`)

The state of a `SequentialSet` is its `values` list. -/

/-- Error outcomes of the mutating container operations:
`uniq` for a uniqueness violation (Python `ValueError`),
`keyErr`/`indexErr` for `KeyError`/`IndexError`,
`immut` for mutation of an already-hashed `DynSet`. -/
inductive SetErr where
  | uniq
  | keyErr
  | indexErr
  | immut
deriving DecidableEq, Repr

/-- `MutableSequentialSet.add` / `DynSet.add` without the hash guard:
append the value unless it is already present (`sequential_sets_v169.py`
lines 107-110). -/
def addElem [DecidableEq α] (xs : List α) (v : α) : List α :=
  if v ∈ xs then xs else xs ++ [v]

/-- `MutableSequentialSet.update`: add every element of a list in order
(`sequential_sets_v169.py` lines 119-121). -/
def updateSet [DecidableEq α] (xs : List α) (vs : List α) : List α :=
  vs.foldl addElem xs

/-- `SequentialSet.__init__`: `list(dict.fromkeys(iterable))` keeps the
first occurrence of each value, preserving order
(`sequential_sets_v169.py` line 11).  Embedded as repeated `addElem`. -/
def dedupFirst [DecidableEq α] (xs : List α) : List α :=
  xs.foldl addElem []

/-- Specification-side restatement of "keep only first occurrence of each
value, preserving order" (spec §4.1), written independently of the code:
walk the list with the set of values seen so far.  Used to check the
refinement `dedupFirst = specDedup`. -/
def specDedup [DecidableEq α] (seen : List α) : List α → List α
  | [] => []
  | x :: rest => if x ∈ seen then specDedup seen rest else x :: specDedup (seen ++ [x]) rest

/-- `MutableSequentialSet.remove` (`sequential_sets_v169.py` lines 127-132):
pop the value's index, pop the last element as filler, and if the removed
slot is not the (former) last slot, move the filler there.  Raises
`KeyError` when the value is absent. -/
def removeSwap [DecidableEq α] (xs : List α) (v : α) : Except SetErr (List α) :=
  match xs.getLast? with
  | none => .error .keyErr
  | some last =>
    if v ∈ xs then
      let i := xs.indexOf v
      let rest := xs.dropLast
      .ok (if i < rest.length then rest.set i last else rest)
    else .error .keyErr

/-- `MutableSequentialSet.discard` (`sequential_sets_v169.py` lines 123-125):
remove the value when present, otherwise do nothing. -/
def discardElem [DecidableEq α] (xs : List α) (v : α) : List α :=
  if v ∈ xs then
    match removeSwap xs v with
    | .ok r => r
    | .error _ => xs
  else xs

/-- `MutableSequentialSet.__delitem__` (`sequential_sets_v169.py` lines
70-76): positional delete; `values.pop(i)` raises `IndexError` out of
range (negative indices are not used by this repository). -/
def delAt (xs : List α) (i : Nat) : Except SetErr (List α) :=
  if i < xs.length then .ok (xs.eraseIdx i) else .error .indexErr

/-- `MutableSequentialSet.__setitem__` (`sequential_sets_v169.py` lines
86-98): positional set; setting a slot to its current value is a no-op,
setting it to a value stored elsewhere raises `ValueError`. -/
def setAt [DecidableEq α] (xs : List α) (i : Nat) (v : α) : Except SetErr (List α) :=
  match xs[i]? with
  | none => .error .indexErr
  | some old =>
    if v = old then .ok xs
    else if v ∈ xs then .error .uniq
    else .ok (xs.set i v)

/-- `MutableSequentialSet.insert` (`sequential_sets_v169.py` lines 100-105):
positional insert of a fresh value; Python `list.insert` clamps the index,
embedded as `take i ++ [v] ++ drop i`. -/
def insertAt [DecidableEq α] (xs : List α) (i : Nat) (v : α) : Except SetErr (List α) :=
  if v ∈ xs then .error .uniq
  else .ok (xs.take i ++ v :: xs.drop i)

/-- `MutableSequentialSet.push` (`sequential_sets_v169.py` lines 112-117):
return the existing position of the element, or append it and return the
new position. -/
def pushElem [DecidableEq α] (xs : List α) (v : α) : List α × Nat :=
  let i := if v ∈ xs then xs.indexOf v else xs.length
  if i = xs.length then (xs ++ [v], i) else (xs, i)

/-- `SequentialSet.index` (`sequential_sets_v169.py` lines 42-45): position
of the value within `[start, real_stop)` or the sentinel `-1`, where an
omitted `stop` means `2 ** 30`.  The Python body has no raising operation:
`indexes.get(value, -1)` and two comparisons. -/
def indexS [DecidableEq α] (xs : List α) (v : α) (start : Nat) (stop : Option Nat) : Int :=
  let realStop : Nat := stop.getD (2 ^ 30)
  let i : Int := if v ∈ xs then (xs.indexOf v : Int) else -1
  if i ≠ -1 ∧ (start : Int) ≤ i ∧ i < (realStop : Int) then i else -1

/-! ### `DynSet`: the mutable-until-hashed variant
(`sequential_sets_v169.py` lines 228-259).  The `hashed` flag records
whether `__hash__` has run (`self.hash is not None`). -/

/-- State of a `DynSet`: the `values` list plus the "has been hashed"
flag. -/
structure DynSet (α : Type) where
  values : List α
  hashed : Bool
deriving DecidableEq, Repr

/-- `DynSet(iterable)`: construct unhashed, deduplicating like
`SequentialSet.__init__`. -/
def DynSet.mk' [DecidableEq α] (xs : List α) : DynSet α :=
  ⟨dedupFirst xs, false⟩

/-- `HashableSequentialSet.__hash__` via `DynSet`: the first hash call
stores the (order-independent) sum of member hashes, after which
`self.hash is not None`.  Only the flag matters for mutation gating. -/
def DynSet.hashOnce (s : DynSet α) : DynSet α :=
  { s with hashed := true }

/-- `SequentialSet.freeze` (`sequential_sets_v169.py` lines 47-50) on a
`DynSet`: since `DynSet` is an instance of `HashableSequentialSet`, the
`isinstance` test succeeds and `freeze` returns `self` unchanged. -/
def DynSet.freeze (s : DynSet α) : DynSet α := s

/-- `DynSet.__delitem__`: guarded positional delete. -/
def DynSet.delItem (s : DynSet α) (i : Nat) : Except SetErr (DynSet α) :=
  if s.hashed then .error .immut
  else (delAt s.values i).map fun r => { s with values := r }

/-- `DynSet.__setitem__` (`sequential_sets_v169.py` lines 236-239): checks
only that the index is not a slice, then calls
`MutableSequentialSet.__setitem__` -- there is NO hash guard here, unlike
every other `DynSet` mutator. -/
def DynSet.setItem [DecidableEq α] (s : DynSet α) (i : Nat) (v : α) : Except SetErr (DynSet α) :=
  (setAt s.values i v).map fun r => { s with values := r }

/-- `DynSet.insert`: guarded positional insert. -/
def DynSet.insertD [DecidableEq α] (s : DynSet α) (i : Nat) (v : α) : Except SetErr (DynSet α) :=
  if s.hashed then .error .immut
  else (insertAt s.values i v).map fun r => { s with values := r }

/-- `DynSet.add`: guarded add. -/
def DynSet.addD [DecidableEq α] (s : DynSet α) (v : α) : Except SetErr (DynSet α) :=
  if s.hashed then .error .immut
  else .ok { s with values := addElem s.values v }

/-- `DynSet.push`: guarded push. -/
def DynSet.pushD [DecidableEq α] (s : DynSet α) (v : α) : Except SetErr (DynSet α × Nat) :=
  if s.hashed then .error .immut
  else
    let r := pushElem s.values v
    .ok ({ s with values := r.1 }, r.2)

/-- `DynSet.remove`: guarded remove. -/
def DynSet.removeD [DecidableEq α] (s : DynSet α) (v : α) : Except SetErr (DynSet α) :=
  if s.hashed then .error .immut
  else (removeSwap s.values v).map fun r => { s with values := r }

/-- `MutableSequentialSet.discard` through `DynSet`: the membership test,
then dynamic dispatch to `DynSet.remove` (which carries the hash guard). -/
def DynSet.discardD [DecidableEq α] (s : DynSet α) (v : α) : Except SetErr (DynSet α) :=
  if v ∈ s.values then s.removeD v else .ok s

/-! ## Grammar data model (`src/libs/syntax_lsp_friendly_v208.py`) -/

/-- `Rule` (`syntax_lsp_friendly_v208.py` lines 19-21).  The head is
`Option String` because the synthetic root rule built by
`LR1Parser.item_sets_and_gotos` uses `None` as its head; every rule of a
grammar's `rule_list` has a `some` head. -/
structure GRule where
  head : Option String
  body : List String
deriving DecidableEq, Repr

/-- `LR1Item` (`syntax_lsp_friendly_v208.py` lines 31-49). -/
structure LR1Item where
  dot : Nat
  rule : GRule
  follower : Option String
deriving DecidableEq, Repr

/-- `LR1Item.next`: the symbol after the dot, or `None` for a completed
item. -/
def LR1Item.next (it : LR1Item) : Option String :=
  it.rule.body[it.dot]?

/-- `LR1Item.tail`: the body symbols strictly after the next one. -/
def LR1Item.tail (it : LR1Item) : List String :=
  it.rule.body.drop (it.dot + 1)

/-- A token scanner: `(text, offset) -> consumed length`, with `none`
embedding the Python `ValueError` "no match" signal.  Source text is a
list of characters. -/
abbrev Scanner := List Char → Nat → Option Nat

/-- `Syntax` (`syntax_lsp_friendly_v208.py` lines 68-71): the rule list and
the terminal-to-scanner mapping, the latter as an insertion-ordered
association list mirroring the Python dict. -/
structure Grammar where
  ruleList : List GRule
  tokenParsers : List (String × Scanner)

/-- Association-list lookup: first entry with the given key, mirroring
Python dict lookup (keys are unique in every dict this code builds). -/
def lookupA [DecidableEq κ] (l : List (κ × β)) (k : κ) : Option β :=
  match l with
  | [] => none
  | e :: r => if e.1 = k then some e.2 else lookupA r k

/-! ### Token scanners (`src/libs/token_parsers.py` and `src/rat.py`) -/

/-- `ignore_spaces` (`token_parsers.py` lines 13-17): count spaces/tabs
from the offset; always succeeds (possibly with length zero). -/
def ignoreSpaces : Scanner := fun src off =>
  some ((src.drop off).takeWhile (fun c => c = ' ' ∨ c = '\t')).length

/-- `ignore_spaces_and_newlines` (`token_parsers.py` lines 20-24). -/
def ignoreSpacesAndNewlines : Scanner := fun src off =>
  some ((src.drop off).takeWhile (fun c => c = ' ' ∨ c = '\t' ∨ c = '\n')).length

/-- `get_keyword_parser(keyword)` (`token_parsers.py` lines 4-10): match
the keyword's own text at the offset (Python slicing clamps at the end of
the string, so a truncated match fails the equality test). -/
def keywordScanner (kw : String) : Scanner := fun src off =>
  if (src.drop off).take kw.length = kw.toList then some kw.length else none

/-- `parse_identifier` (`rat.py` lines 42-48): one alphabetic character,
then AT MOST one further alphanumeric-or-underscore character (the Python
body uses `if`, not `while`, so it never consumes more than two
characters).  An offset at or past the end would raise an uncaught
`IndexError` in Python; `scan_token` never calls it there, and the
embedding returns no-match for that unreachable case. -/
def parseIdentifier : Scanner := fun src off =>
  match src[off]? with
  | none => none
  | some c =>
    if c.isAlpha then
      match src[off + 1]? with
      | some d => if d.isAlphanum ∨ d = '_' then some 2 else some 1
      | none => some 1
    else none

/-- `TOKEN_PARSERS` (`token_parsers.py` lines 27-30): the built-in scanner
registry, keyed by terminal name. -/
def builtinScanner (t : String) : Option Scanner :=
  if t = "" then some ignoreSpaces
  else if t = " " then some ignoreSpacesAndNewlines
  else none

/-! ### `split_str` (`syntax_lsp_friendly_v208.py` lines 9-16) -/

/-- Python `string.split(sep)` for a single-character separator: split at
every occurrence, keeping empty pieces (so `"a  b".split(" ") =
["a", "", "b"]` and `"".split(" ") = [""]`). -/
def pySplitChar (sep : Char) : List Char → List (List Char)
  | [] => [[]]
  | c :: rest =>
    if c = sep then [] :: pySplitChar sep rest
    else
      match pySplitChar sep rest with
      | w :: ws => (c :: w) :: ws
      | [] => [[c]]

/-- One iteration of the `split_str` merging loop: an empty piece following
an empty or separator-initial accumulated word pops that word and extends
it with one separator character. -/
def splitStep (sep : Char) (result : List (List Char)) (word : List Char) : List (List Char) :=
  let lastW := result.getLast?.getD []
  if word = [] ∧ result ≠ [] ∧ (lastW = [] ∨ lastW.take 1 = [sep]) then
    result.dropLast ++ [lastW ++ [sep]]
  else result ++ [word]

/-- `split_str(string, sep)` (`syntax_lsp_friendly_v208.py` lines 9-16) for
a single-character separator, which is how the repository calls it
(always with `sep = " "` and the default `maxsplit = -1`, i.e. no limit). -/
def splitStr (s : List Char) (sep : Char) : List (List Char) :=
  (pySplitChar sep s).foldl (splitStep sep) []

/-! ### Grammar construction
(`Syntax.from_description` / `Syntax.from_rules`,
`syntax_lsp_friendly_v208.py` lines 73-103) -/

/-- `Syntax.nodes` and the `nodes` set of `from_rules`: the heads of the
rule list (deduplicated; order is first occurrence, though `from_rules`
only tests membership). -/
def nodesOf (rules : List GRule) : List String :=
  dedupFirst (rules.filterMap (·.head))

/-- `Syntax.symbols`: every body symbol (first-occurrence order), then
`update` with the nodes. -/
def symbolsOf (rules : List GRule) : List String :=
  updateSet (dedupFirst (rules.flatMap (·.body))) (nodesOf rules)

/-- `Syntax.tokens` and the `tokens` set of `from_rules`: the symbols that
are not nodes, in symbol order (for `from_rules` this is the same list:
body symbols not naming a rule head, first-occurrence order). -/
def tokensOf (rules : List GRule) : List String :=
  (symbolsOf rules).filter (fun s => s ∉ nodesOf rules)

/-- Scanner resolution of `from_rules` for one terminal: supplied parser,
else built-in registry, else literal-keyword scanner. -/
def resolveScanner (extra : List (String × Scanner)) (t : String) : Scanner :=
  match lookupA extra t with
  | some f => f
  | none =>
    match builtinScanner t with
    | some f => f
    | none => keywordScanner t

/-- `Syntax.from_rules` (`syntax_lsp_friendly_v208.py` lines 87-103). -/
def fromRules (rules : List GRule) (extra : List (String × Scanner)) : Grammar :=
  ⟨rules, (tokensOf rules).map (fun t => (t, resolveScanner extra t))⟩

/-- `Syntax.from_description` (`syntax_lsp_friendly_v208.py` lines 73-85)
restricted to textual rules, as the demo uses it: each description is
split on a single space, the first piece is the head. -/
def fromDescription (rules : List String) (extra : List (String × Scanner)) : Grammar :=
  fromRules
    (rules.map fun r =>
      match splitStr r.toList ' ' with
      | h :: b => ⟨some (String.mk h), b.map String.mk⟩
      | [] => ⟨none, []⟩)
    extra

/-- `Syntax.rules` (`syntax_lsp_friendly_v208.py` lines 121-126) as a
lookup: the (deduplicated) rules with the given head, in rule-list order;
`rules.get(item.next(), ())` yields nothing for `None` or a non-node. -/
def rulesByHead (g : Grammar) (h : Option String) : List GRule :=
  match h with
  | none => []
  | some n => dedupFirst (g.ruleList.filter (fun r => r.head = some n))

/-! ### Generic fueled iteration

The Python code iterates sets that grow while being walked, and loops
`while not done`.  Both are embedded as a step function iterated with
explicit fuel; `none` is fuel exhaustion, an outcome the (terminating)
Python loops never produce. -/

/-- Iterate a step that either continues (`inl`) or finishes (`inr`);
a `none` step or exhausted fuel aborts with `none`. -/
def iterO (f : σ → Option (σ ⊕ ρ)) : Nat → σ → Option ρ
  | 0, _ => none
  | n + 1, s =>
    match f s with
    | none => none
    | some (.inr r) => some r
    | some (.inl s2) => iterO f n s2

/-- `Option`-valued `List.mapM` by explicit recursion. -/
def mapMO (f : α → Option β) : List α → Option (List β)
  | [] => some []
  | a :: rest =>
    match f a, mapMO f rest with
    | some b, some bs => some (b :: bs)
    | _, _ => none

/-! ### The `prefixes` fixpoint
(`Syntax.prefixes`, `syntax_lsp_friendly_v208.py` lines 128-150) -/

/-- The prefix table: symbol name to its set of first terminals, with
`none` as the nullability marker, as an insertion-ordered association
list mirroring the Python dict of `DynSet`s. -/
abbrev PrefMap := List (String × List (Option String))

/-- Lookup in the prefix table; symbols fed to it always have entries
(`nodes` and `tokens` are exactly the keys), so the default is
unreachable. -/
def lookupPref (p : PrefMap) (k : String) : List (Option String) :=
  (lookupA p k).getD []

/-- Add one value to one entry of the prefix table (`DynSet.add`:
append-if-absent). -/
def mapAddPref (p : PrefMap) (k : String) (v : Option String) : PrefMap :=
  match p with
  | [] => []
  | e :: r => if e.1 = k then (e.1, addElem e.2 v) :: r else e :: mapAddPref r k v

/-- The inner body scan of the `prefixes` loop for one rule: accumulate the
non-null prefixes of each body symbol into the head's entry, stop at the
first non-nullable body symbol, and add the nullability marker when the
scan runs off the end of the body (Python `while`/`else`; the
`body[0] is not None` guard never fires since rule bodies hold strings). -/
def scanBody (node : String) : PrefMap → List String → PrefMap
  | p, [] => mapAddPref p node none
  | p, b :: rest =>
    let firsts := (lookupPref p b).filter (fun x => x ≠ none)
    let p2 := firsts.foldl (fun acc f => mapAddPref acc node f) p
    if none ∈ lookupPref p2 b then scanBody node p2 rest else p2

/-- One full pass of the `prefixes` fixpoint over the rule list.  A rule
with a `None` head never occurs in a `rule_list`. -/
def prefPass (rules : List GRule) (p : PrefMap) : PrefMap :=
  rules.foldl
    (fun acc r =>
      match r.head with
      | some h => scanBody h acc r.body
      | none => acc)
    p

/-- Initial prefix table: empty set for each node, singleton set for each
token (`syntax_lsp_friendly_v208.py` lines 131-132). -/
def prefInit (rules : List GRule) : PrefMap :=
  (nodesOf rules).map (fun n => (n, ([] : List (Option String))))
    ++ (tokensOf rules).map (fun t => (t, [some t]))

/-- `Syntax.prefixes`: iterate passes until one changes nothing (the
Python `done` flag is set exactly when a pass adds no element, i.e. when
the pass is the identity on the table). -/
def prefixesF (fuel : Nat) (rules : List GRule) : Option PrefMap :=
  iterO
    (fun p =>
      let p2 := prefPass rules p
      some (if p2 = p then .inr p else .inl p2))
    fuel (prefInit rules)

/-! ### Sequence prefixes and LR(1) closure
(`syntax_lsp_friendly_v208.py` lines 152-168) -/

/-- Total version of `DynSet.remove` used where the Python code has
already checked membership. -/
def removeSwapT [DecidableEq α] (xs : List α) (v : α) : List α :=
  match removeSwap xs v with
  | .ok r => r
  | .error _ => xs

/-- The loop of `get_sequence_prefixes`: while the marker is present and a
non-null symbol remains, swap-remove the marker and union in that symbol's
prefixes. -/
def seqPrefGo (tbl : PrefMap) : List (Option String) → List (Option String) → List (Option String)
  | cur, [] => cur
  | cur, s :: rest =>
    match s with
    | none => cur
    | some sym =>
      if none ∈ cur then seqPrefGo tbl (updateSet (removeSwapT cur none) (lookupPref tbl sym)) rest
      else cur

/-- `Syntax.get_sequence_prefixes` (lines 152-159), starting from
`{None}`. -/
def seqPrefixes (tbl : PrefMap) (seq : List (Option String)) : List (Option String) :=
  seqPrefGo tbl [none] seq

/-- One step of `lr1_closure`: expand the item at the cursor (the Python
`for` walks the set while `add` appends to it). -/
def closureStep (g : Grammar) (tbl : PrefMap) :
    List LR1Item × Nat → (List LR1Item × Nat) ⊕ List LR1Item
  | (items, idx) =>
    if idx < items.length then
      let it := items.getD idx ⟨0, ⟨none, []⟩, none⟩
      let followers := seqPrefixes tbl (it.tail.map some ++ [it.follower])
      let items2 :=
        (rulesByHead g it.next).foldl
          (fun acc rule =>
            followers.foldl (fun acc2 f => addElem acc2 ⟨0, rule, f⟩) acc)
          items
      .inl (items2, idx + 1)
    else .inr items

/-- `Syntax.lr1_closure` (lines 161-168), fueled. -/
def closureF (fuel : Nat) (g : Grammar) (tbl : PrefMap) (core : List LR1Item) :
    Option (List LR1Item) :=
  iterO (fun s => some (closureStep g tbl s)) fuel (core, 0)

/-! ### Canonical item sets and GOTO
(`LR1Parser.item_sets_and_gotos`, `syntax_lsp_friendly_v208.py`
lines 199-214) -/

/-- Set equality of two item lists, as Python's `collections.abc.Set`
equality (equal cardinality and mutual membership; the stored cores are
duplicate-free, so mutual membership suffices). -/
def listEquiv [DecidableEq α] (a b : List α) : Bool :=
  a.all (· ∈ b) && b.all (· ∈ a)

/-- `DynSet.push` on the collection of item sets: reuse the index of an
equal (as a set) existing core, else append. -/
def pushEquiv (sets : List (List LR1Item)) (s : List LR1Item) :
    List (List LR1Item) × Nat :=
  match sets.findIdx? (fun t => listEquiv t s) with
  | some i => (sets, i)
  | none => (sets ++ [s], sets.length)

/-- The GOTO table, keyed by `(state index, symbol)`. -/
abbrev GotoMap := List ((Nat × String) × Nat)

/-- One step of the item-set worklist: close the core at the cursor and,
for each grammar symbol in order, advance the matching items, interning
any non-empty result via `pushEquiv` and recording the transition. -/
def isetStep (fuel : Nat) (g : Grammar) (tbl : PrefMap) :
    (List (List LR1Item) × GotoMap × Nat) →
      Option ((List (List LR1Item) × GotoMap × Nat) ⊕ (List (List LR1Item) × GotoMap))
  | (sets, gotos, i) =>
    if i < sets.length then
      match closureF fuel g tbl (sets.getD i []) with
      | none => none
      | some closed =>
        let step := (symbolsOf g.ruleList).foldl
          (fun (acc : List (List LR1Item) × GotoMap) sym =>
            let nextSet := dedupFirst (closed.filterMap (fun it =>
              if it.rule.body[it.dot]? = some sym then
                some (⟨it.dot + 1, it.rule, it.follower⟩ : LR1Item)
              else none))
            if nextSet = [] then acc
            else
              let pr := pushEquiv acc.1 nextSet
              (pr.1, acc.2 ++ [((i, sym), pr.2)]))
          (sets, gotos)
        some (.inl (step.1, step.2, i + 1))
    else some (.inr (sets, gotos))

/-- `LR1Parser.item_sets_and_gotos`: seed with the synthetic root item's
singleton core, then run the worklist. -/
def buildItemSets (fuel : Nat) (g : Grammar) (tbl : PrefMap) (root : String) :
    Option (List (List LR1Item) × GotoMap) :=
  iterO (isetStep fuel g tbl) fuel ([[⟨0, ⟨none, [root]⟩, none⟩]], [], 0)

/-! ### Tokenization (`Syntax.scan_token`,
`syntax_lsp_friendly_v208.py` lines 173-188) -/

/-- One scanner tried by `scan_token`: keep the current champion unless
this scanner matches strictly more (`max_len` starts at `-1`, embedded as
the `none` accumulator, so a zero-length first match is accepted; ties
keep the earlier-registered champion). -/
def scanStep (src : List Char) (i : Nat) (acc : Option (String × Nat))
    (p : String × Scanner) : Option (String × Nat) :=
  match p.2 src i with
  | some len =>
    match acc with
    | some q => if q.2 < len then some (p.1, len) else acc
    | none => some (p.1, len)
  | none => acc

/-- The fold of `scan_token` over the registered scanners. -/
def scanFold (src : List Char) (i : Nat) (ps : List (String × Scanner)) :
    Option (String × Nat) :=
  ps.foldl (scanStep src i) none

/-- `Syntax.scan_token(source, i)`: a null terminal with empty span at or
past the end of the input; otherwise the longest (earliest-registered on
ties) match, or a `ValueError` carrying the offset when every scanner
fails. -/
def scanToken (ps : List (String × Scanner)) (src : List Char) (i : Nat) :
    Except Nat (Option String × Nat × Nat) :=
  if src.length ≤ i then .ok (none, i, i)
  else
    match scanFold src i ps with
    | some (t, m) => .ok (some t, i, i + m)
    | none => .error i

/-! ### ACTION table (`LR1Parser.actions`,
`syntax_lsp_friendly_v208.py` lines 224-240) -/

/-- A parser action. -/
inductive PAction where
  | shift (state : Nat)
  | reduce (rule : GRule)
  | accept
deriving DecidableEq, Repr

/-- ACTION-table keys: `(state, lookahead terminal or end-of-input)`. -/
abbrev ActKey := Nat × Option String

/-- The action entries one state contributes, in the code's insertion
order: first a shift for every token with a truthy GOTO target (`if (j :=
gotos.get((i, t)))` skips both a missing key and a target of `0`; state
`0` is the start core, which no advance can reproduce), then a reduce for
every completed genuine item, then accept for the completed root item with
a null follower. -/
def stateCandidates (g : Grammar) (gotos : GotoMap) (i : Nat) (closed : List LR1Item) :
    List (ActKey × PAction) :=
  (tokensOf g.ruleList).filterMap
      (fun t =>
        match lookupA gotos (i, t) with
        | some j => if j ≠ 0 then some (((i, some t), PAction.shift j)) else none
        | none => none)
    ++ (closed.filter (fun it => it.dot = it.rule.body.length)).filterMap
      (fun it =>
        match it.rule.head with
        | some _ => some (((i, it.follower), PAction.reduce it.rule))
        | none => if it.follower = none then some (((i, none), PAction.accept)) else none)

/-- All action entries of all states, in construction order. -/
def actionCandidates (g : Grammar) (gotos : GotoMap) (closures : List (List LR1Item)) :
    List (ActKey × PAction) :=
  (closures.enum.flatMap fun ci => stateCandidates g gotos ci.1 ci.2)

/-- Insert one action entry, failing on an already-claimed key (the
`assert (i, terminal) not in actions, "Conflict!"` guards). -/
def insChecked (acc : Except Unit (List (ActKey × PAction))) (e : ActKey × PAction) :
    Except Unit (List (ActKey × PAction)) :=
  match acc with
  | .error u => .error u
  | .ok m => if (lookupA m e.1).isSome then .error () else .ok (m ++ [e])

/-- Build the ACTION table from the candidate entries, aborting on the
first conflict. -/
def checkedBuild (cands : List (ActKey × PAction)) :
    Except Unit (List (ActKey × PAction)) :=
  cands.foldl insChecked (.ok [])

/-- Everything `parse` needs from the lazily built tables: GOTO plus the
conflict-checked ACTION table.  `actions` recomputes the closure of every
stored core (`syntax_lsp_friendly_v208.py` line 227). -/
def buildTables (fuel : Nat) (g : Grammar) (root : String) :
    Option (Except Unit (GotoMap × List (ActKey × PAction))) :=
  match prefixesF fuel g.ruleList with
  | none => none
  | some tbl =>
    match buildItemSets fuel g tbl root with
    | none => none
    | some (sets, gotos) =>
      match mapMO (closureF fuel g tbl) sets with
      | none => none
      | some closures =>
        some ((checkedBuild (actionCandidates g gotos closures)).map fun acts => (gotos, acts))

/-! ### The shift-reduce driver (`LR1Parser.parse`,
`syntax_lsp_friendly_v208.py` lines 242-266) -/

/-- `Node` (`syntax_lsp_friendly_v208.py` lines 52-55): name, span, and
either the matched substring (leaf) or the children (interior).  The name
is `Option String` because the driver builds leaves from the scanned token
(never `None` in practice, since no shift action is keyed on the null
terminal). -/
inductive PNode where
  | leaf (name : Option String) (s e : Nat) (text : List Char)
  | inner (name : Option String) (s e : Nat) (children : List PNode)

/-- Start of a node's span. -/
def PNode.spanStart : PNode → Nat
  | .leaf _ s _ _ => s
  | .inner _ s _ _ => s

/-- End of a node's span. -/
def PNode.spanEnd : PNode → Nat
  | .leaf _ _ e _ => e
  | .inner _ _ e _ => e

/-- A cell of the parse stack, which alternates state indices and nodes. -/
inductive Cell where
  | st (n : Nat)
  | nd (node : PNode)

/-- Driver state: the stack (head = Python `stack[-1]`), the current token
and its span.  The Python stack grows at the end; the embedding keeps the
top at the head, so Python `stack[:-k]` is `drop k` and the appended pair
`[node, state]` becomes `.st state :: .nd node :: stack`. -/
structure PState where
  stack : List Cell
  tok : Option String
  i : Nat
  j : Nat

/-- Parse-time fatal errors: tokenization failure (`ValueError` from
`scan_token`, carrying the offset), unexpected token (no table action for
the state/token pair, carrying span and token), and `internal` for the
uncaught `IndexError`/`KeyError`/`AttributeError` crashes the Python
driver can raise on malformed tables (unreachable with the tables this
repository builds). -/
inductive PErr where
  | scanFail (off : Nat)
  | unexpected (i j : Nat) (tok : Option String)
  | internal
deriving DecidableEq, Repr

/-- Result of one driver step. -/
inductive StepRes where
  | done (n : PNode)
  | fail (e : PErr)
  | next (s : PState)

/-- Extract the node of each popped cell; a state cell where a node is
expected is the Python `AttributeError` crash. -/
def cellNodes : List Cell → Option (List PNode)
  | [] => some []
  | .nd n :: rest => (cellNodes rest).map (n :: ·)
  | .st _ :: _ => none

/-- The cells at even offsets (Python `stack[-2k::2]`, which selects the
node cells of the popped block, bottom to top). -/
def evens : List α → List α
  | [] => []
  | [a] => [a]
  | a :: _ :: rest => a :: evens rest

/-- One iteration of the `parse` loop (`syntax_lsp_friendly_v208.py`
lines 246-266): look up the action for the top state and the current
token; shift pushes a leaf and rescans just past the consumed span;
reduce pops `2 * len(body)` cells, consults GOTO, and pushes an interior
node; accept returns the node above the initial state.  A missing action
is the fatal unexpected-token error; the impossible stack shapes map to
`internal` (see `PErr`). -/
def stepD (ps : List (String × Scanner)) (acts : List (ActKey × PAction))
    (gotos : GotoMap) (src : List Char) (st : PState) : StepRes :=
  match st.stack with
  | [] => .fail .internal
  | top :: _ =>
    let sKey : Option Nat := match top with | .st n => some n | .nd _ => none
    match sKey with
    | none => .fail (.unexpected st.i st.j st.tok)
    | some s =>
      match lookupA acts (s, st.tok) with
      | none => .fail (.unexpected st.i st.j st.tok)
      | some (.shift target) =>
        let leaf := PNode.leaf st.tok st.i st.j ((src.take st.j).drop st.i)
        match scanToken ps src st.j with
        | .error off => .fail (.scanFail off)
        | .ok (tok2, a, b) => .next ⟨.st target :: .nd leaf :: st.stack, tok2, a, b⟩
      | some (.reduce r) =>
        let L := r.body.length
        if L = 0 then .fail .internal
        else
          let popped := st.stack.take (2 * L)
          let keep := st.stack.drop (2 * L)
          match keep with
          | [] => .fail .internal
          | .nd _ :: _ => .fail .internal
          | .st gSt :: _ =>
            let target? := match r.head with
              | some h => lookupA gotos (gSt, h)
              | none => none
            match target? with
            | none => .fail .internal
            | some g2 =>
              match cellNodes (evens popped.reverse) with
              | none => .fail .internal
              | some ns =>
                match ns.head?, ns.getLast? with
                | some n1, some nL =>
                  .next ⟨.st g2 :: .nd (PNode.inner r.head n1.spanStart nL.spanEnd ns) :: keep,
                    st.tok, st.i, st.j⟩
                | _, _ => .fail .internal
      | some .accept =>
        match st.stack.reverse[1]? with
        | some (Cell.nd n) => .done n
        | _ => .fail .internal

/-- Result of the fueled driver loop. -/
inductive DRes where
  | done (n : PNode)
  | fail (e : PErr)
  | fuelOut

/-- The `while True` loop of `parse`, fueled. -/
def runDriver (ps : List (String × Scanner)) (acts : List (ActKey × PAction))
    (gotos : GotoMap) (src : List Char) : Nat → PState → DRes
  | 0, _ => .fuelOut
  | n + 1, st =>
    match stepD ps acts gotos src st with
    | .done nd => .done nd
    | .fail e => .fail e
    | .next st2 => runDriver ps acts gotos src n st2

/-- Scan the first token, then run the driver loop from stack `[0]`
(`syntax_lsp_friendly_v208.py` lines 243-245). -/
def parseDriver (ps : List (String × Scanner)) (acts : List (ActKey × PAction))
    (gotos : GotoMap) (src : List Char) (off : Nat) (fuel : Nat) : DRes :=
  match scanToken ps src off with
  | .error o => .fail (.scanFail o)
  | .ok (tok, a, b) => runDriver ps acts gotos src fuel ⟨[.st 0], tok, a, b⟩

/-- Outcome of a full `parser.parse(source, offset)` call, including the
lazy first-use construction of the tables: the finished tree, a fatal
parse error, the construction-time conflict `AssertionError`, or fuel
exhaustion (which the Python code, lacking fuel, never reports). -/
inductive POut where
  | tree (n : PNode)
  | perr (e : PErr)
  | conflict
  | fuelOut

/-- `LR1Parser(grammar, root).parse(source, offset)`: the initial
`scan_token` runs first (line 245); the first table access then triggers
construction, so a grammar conflict aborts there; otherwise the driver
loop runs. -/
def ratParse (fuel : Nat) (g : Grammar) (root : String) (src : List Char) (off : Nat) : POut :=
  match scanToken g.tokenParsers src off with
  | .error o => .perr (.scanFail o)
  | .ok (tok, a, b) =>
    match buildTables fuel g root with
    | none => .fuelOut
    | some (.error _) => .conflict
    | some (.ok (gotos, acts)) =>
      match runDriver g.tokenParsers acts gotos src fuel ⟨[.st 0], tok, a, b⟩ with
      | .done n => .tree n
      | .fail e => .perr e
      | .fuelOut => .fuelOut

/-! ### Concrete grammars used by the claims -/

/-- The demo grammar of `rat.py` lines 51-53: rule descriptions
`"stmts identifier  =  expr"` and `"expr identifier"` with the
`identifier` scanner supplied. -/
def demoSyn : Grammar :=
  fromDescription ["stmts identifier  =  expr", "expr identifier"]
    [("identifier", parseIdentifier)]

/-- A conflict-free grammar with a zero-length terminal: `S -> "" S | x`.
The `""` terminal resolves to the built-in skip-spaces scanner, which can
succeed consuming nothing. -/
def loopSyn : Grammar :=
  fromRules [⟨some "S", ["", "S"]⟩, ⟨some "S", ["x"]⟩] []

/-- A reduce-reduce-conflicted grammar: `S -> A | B`, `A -> x`,
`B -> x`. -/
def conflictSyn : Grammar :=
  fromRules [⟨some "S", ["A"]⟩, ⟨some "S", ["B"]⟩, ⟨some "A", ["x"]⟩, ⟨some "B", ["x"]⟩] []

/-- A strictly-consuming grammar with a two-symbol body: `S -> a b`. -/
def abSyn : Grammar :=
  fromRules [⟨some "S", ["a", "b"]⟩] []

/-- The grammar of the `prefixes` test properties: `A -> ε | "x" B` plus
`H -> t` (so `H`'s only rule has a single-terminal body). -/
def prefSynRules : List GRule :=
  [⟨some "A", []⟩, ⟨some "A", ["x", "B"]⟩, ⟨some "H", ["t"]⟩]

/-- The fixpoint the `prefixes` iteration reaches on `prefSynRules`. -/
def prefTableC8 : PrefMap :=
  [("A", [none, some "x"]), ("H", [some "t"]),
   ("x", [some "x"]), ("B", [some "B"]), ("t", [some "t"])]

/-! ### Operation sequences on a mutable sequential set

Used to state "`contains(x)` holds iff `x` was added and not later
removed" over arbitrary histories of additions and (value-keyed)
removals. -/

/-- A mutation in a history: `add(v)` or `discard(v)` (removal of `v` when
present; `discard` is the total removal entry point of
`MutableSequentialSet`). -/
inductive SetOp (α : Type) where
  | addO (v : α)
  | discardO (v : α)
deriving DecidableEq, Repr

/-- Apply one operation. -/
def applyOp [DecidableEq α] (xs : List α) : SetOp α → List α
  | .addO v => addElem xs v
  | .discardO v => discardElem xs v

/-- Apply a history of operations in order. -/
def applyOps [DecidableEq α] (ops : List (SetOp α)) (xs : List α) : List α :=
  ops.foldl applyOp xs

/-- Does an operation mention the value `x`? -/
def touches [DecidableEq α] (x : α) : SetOp α → Bool
  | .addO v => v = x
  | .discardO v => v = x

/-- The GOTO table `buildItemSets` produces for `loopSyn` (start `S`). -/
def loopGotos : GotoMap :=
  [((0, ""), 1), ((0, "S"), 2), ((0, "x"), 3), ((1, ""), 1), ((1, "S"), 4), ((1, "x"), 3)]

/-- The (conflict-free) ACTION table for `loopSyn`. -/
def loopActs : List (ActKey × PAction) :=
  [((0, some ""), .shift 1), ((0, some "x"), .shift 3),
   ((1, some ""), .shift 1), ((1, some "x"), .shift 3),
   ((2, none), .accept),
   ((3, none), .reduce ⟨some "S", ["x"]⟩),
   ((4, none), .reduce ⟨some "S", ["", "S"]⟩)]

/-- The GOTO table for `abSyn` (start `S`). -/
def abGotos : GotoMap :=
  [((0, "a"), 1), ((0, "S"), 2), ((1, "b"), 3)]

/-- The ACTION table for `abSyn`. -/
def abActs : List (ActKey × PAction) :=
  [((0, some "a"), .shift 1), ((1, some "b"), .shift 3),
   ((2, none), .accept),
   ((3, none), .reduce ⟨some "S", ["a", "b"]⟩)]

/-- Scanners used to exercise `scan_token`: two scanners that match the
same two-character keyword (a tie) and one that matches a longer one. -/
def c6ps : List (String × Scanner) :=
  [("A", keywordScanner "ab"), ("B", keywordScanner "ab"), ("C", keywordScanner "abc")]

/-! ### Termination measure for the parse driver -/

/-- Measure for the driver loop: the stack length plus (weighted) the input
not yet reached by the current token's start.  Under the hypotheses of the
amended termination claim, every driver step either stops or strictly
decreases it. -/
def driverMu (src : List Char) (st : PState) : Nat :=
  2 * st.stack.length + 7 * (src.length + 1 - st.i)

/-! ## Helper lemmas -/

theorem mem_addElem [DecidableEq α] {xs : List α} {v x : α} :
    x ∈ addElem xs v ↔ x ∈ xs ∨ x = v := by
  unfold addElem
  by_cases h : v ∈ xs <;> simp [h]
  intro hx
  rw [hx] at *
  tauto

theorem nodup_addElem [DecidableEq α] {xs : List α} (v : α) (h : xs.Nodup) :
    (addElem xs v).Nodup := by
  unfold addElem
  by_cases hv : v ∈ xs
  · simp [hv, h]
  · simp [hv, List.nodup_append, h]

theorem indexOf_append_cons [DecidableEq α] (pre : List α) (v : α) (post : List α)
    (h : v ∉ pre) : (pre ++ v :: post).indexOf v = pre.length := by
  induction pre with
  | nil => simp
  | cons a t ih =>
    have ha : v ≠ a := by rintro rfl; exact h (by simp)
    have ht : v ∉ t := fun hm => h (by simp [hm])
    simp only [List.cons_append, List.length_cons]
    rw [List.indexOf_cons_ne _ (by simpa using ha.symm), ih ht]

theorem set_at_append (pre : List α) (a b : α) (post : List α) :
    (pre ++ a :: post).set pre.length b = pre ++ b :: post := by
  induction pre with
  | nil => simp
  | cons c t ih => simp [List.set, ih]

theorem removeSwap_concat [DecidableEq α] (pre : List α) (v : α) (post : List α) (lastE : α)
    (h : v ∉ pre) :
    removeSwap (pre ++ v :: (post ++ [lastE])) v = .ok (pre ++ lastE :: post) := by
  have hx : pre ++ v :: (post ++ [lastE]) = (pre ++ v :: post) ++ [lastE] := by simp
  rw [hx]
  unfold removeSwap
  rw [List.getLast?_concat]
  have hmem : v ∈ (pre ++ v :: post) ++ [lastE] := by simp
  have hidx : ((pre ++ v :: post) ++ [lastE]).indexOf v = pre.length := by
    have : (pre ++ v :: post) ++ [lastE] = pre ++ v :: (post ++ [lastE]) := by simp
    rw [this]
    exact indexOf_append_cons pre v (post ++ [lastE]) h
  have hdl : ((pre ++ v :: post) ++ [lastE]).dropLast = pre ++ v :: post :=
    List.dropLast_concat ..
  simp only [hmem, if_pos, hidx, hdl]
  have hlt : pre.length < (pre ++ v :: post).length := by simp
  simp [hlt, set_at_append]

theorem removeSwap_lastpos [DecidableEq α] (pre : List α) (v : α) (h : v ∉ pre) :
    removeSwap (pre ++ [v]) v = .ok pre := by
  unfold removeSwap
  rw [List.getLast?_concat]
  have hmem : v ∈ pre ++ [v] := by simp
  have hidx : (pre ++ [v]).indexOf v = pre.length := indexOf_append_cons pre v [] h
  have hdl : (pre ++ [v]).dropLast = pre := by simp [List.dropLast_concat]
  simp [hmem, hidx, hdl]

theorem removeSwap_mem [DecidableEq α] {xs : List α} {v : α} {r : List α}
    (h : removeSwap xs v = .ok r) : v ∈ xs := by
  by_cases hv : v ∈ xs
  · exact hv
  · exfalso
    unfold removeSwap at h
    cases hL : xs.getLast? <;> rw [hL] at h <;> simp [hv] at h

theorem removeSwap_perm [DecidableEq α] (xs : List α) (v : α) (r : List α)
    (hn : xs.Nodup) (h : removeSwap xs v = .ok r) : r.Perm (xs.erase v) := by
  obtain ⟨pre, post, rfl⟩ := List.append_of_mem (removeSwap_mem h)
  have hvpre : v ∉ pre := by
    have := hn
    rw [List.nodup_middle] at this
    have hnm := (List.nodup_cons.mp this).1
    intro hc; exact hnm (by simp [hc])
  have herase : (pre ++ v :: post).erase v = pre ++ post := by
    rw [List.erase_append_right _ hvpre, List.erase_cons_head]
  rcases List.eq_nil_or_concat post with hpost | ⟨q, lastE, hq⟩
  · subst hpost
    have := removeSwap_lastpos pre v hvpre
    rw [this] at h
    cases h
    rw [herase]
    simp
  · rw [List.concat_eq_append] at hq
    subst hq
    have := removeSwap_concat pre v q lastE hvpre
    rw [this] at h
    cases h
    rw [herase]
    exact List.Perm.append_left pre (List.perm_append_singleton lastE q).symm

theorem discardElem_perm [DecidableEq α] (xs : List α) (v : α) (hn : xs.Nodup)
    (hv : v ∈ xs) : (discardElem xs v).Perm (xs.erase v) := by
  unfold discardElem
  rw [if_pos hv]
  match hR : removeSwap xs v with
  | .ok r => exact removeSwap_perm xs v r hn hR
  | .error e =>
    obtain ⟨pre, post, rfl⟩ := List.append_of_mem hv
    have hvpre : v ∉ pre := by
      have := hn
      rw [List.nodup_middle] at this
      have hnm := (List.nodup_cons.mp this).1
      intro hc; exact hnm (by simp [hc])
    rcases List.eq_nil_or_concat post with hpost | ⟨q, lastE, hq⟩
    · subst hpost; rw [removeSwap_lastpos pre v hvpre] at hR; cases hR
    · rw [List.concat_eq_append] at hq
      subst hq
      rw [removeSwap_concat pre v q lastE hvpre] at hR; cases hR

theorem mem_discardElem [DecidableEq α] {xs : List α} {v x : α} (hn : xs.Nodup) :
    x ∈ discardElem xs v ↔ x ∈ xs ∧ x ≠ v := by
  by_cases hv : v ∈ xs
  · rw [(discardElem_perm xs v hn hv).mem_iff, hn.mem_erase_iff]
    tauto
  · unfold discardElem
    rw [if_neg hv]
    constructor
    · intro hx
      exact ⟨hx, by rintro rfl; exact hv hx⟩
    · exact And.left

theorem nodup_discardElem [DecidableEq α] (xs : List α) (v : α) (hn : xs.Nodup) :
    (discardElem xs v).Nodup := by
  by_cases hv : v ∈ xs
  · exact ((discardElem_perm xs v hn hv).nodup_iff).mpr (hn.erase v)
  · unfold discardElem; rw [if_neg hv]; exact hn

theorem dedupFirst_go [DecidableEq α] (xs acc : List α) :
    xs.foldl addElem acc = acc ++ specDedup acc xs := by
  induction xs generalizing acc with
  | nil => simp [specDedup]
  | cons x rest ih =>
    by_cases hx : x ∈ acc
    · simp [specDedup, hx, List.foldl_cons, addElem, ih]
    · simp only [List.foldl_cons, addElem, if_neg hx, specDedup, ih]
      simp [ih (acc ++ [x])]

theorem nodup_foldl_addElem [DecidableEq α] (xs acc : List α) (h : acc.Nodup) :
    (xs.foldl addElem acc).Nodup := by
  induction xs generalizing acc with
  | nil => exact h
  | cons x rest ih => exact ih _ (nodup_addElem x h)

theorem nodup_set_of_not_mem [DecidableEq α] :
    ∀ (xs : List α) (i : Nat) (v : α), xs.Nodup → v ∉ xs → (xs.set i v).Nodup
  | [], _, _, _, _ => by simp
  | a :: t, 0, v, hn, hv => by
    simp only [List.set]
    rw [List.nodup_cons] at hn ⊢
    exact ⟨fun hm => hv (by simp [hm]), hn.2⟩
  | a :: t, i + 1, v, hn, hv => by
    simp only [List.set]
    rw [List.nodup_cons] at hn ⊢
    refine ⟨fun hm => ?_, nodup_set_of_not_mem t i v hn.2 (fun hm => hv (by simp [hm]))⟩
    rcases List.mem_or_eq_of_mem_set hm with h1 | rfl
    · exact hn.1 h1
    · exact hv (by simp)

/-! ### `split_str` helper lemmas -/

theorem pySplit_sepfree {sep : Char} : ∀ {v : List Char}, sep ∉ v → pySplitChar sep v = [v]
  | [], _ => rfl
  | c :: t, h => by
    have hc : ¬(c = sep) := fun hcs => h (by simp [hcs])
    have ht : sep ∉ t := fun hm => h (by simp [hm])
    simp only [pySplitChar, if_neg hc, pySplit_sepfree ht]

theorem pySplit_sepfree_append {sep : Char} :
    ∀ (u t : List Char), sep ∉ u →
      pySplitChar sep (u ++ sep :: t) = u :: pySplitChar sep t
  | [], t, _ => by simp [pySplitChar]
  | c :: u, t, h => by
    have hc : ¬(c = sep) := fun hcs => h (by simp [hcs])
    have hu : sep ∉ u := fun hm => h (by simp [hm])
    simp only [List.cons_append, pySplitChar, if_neg hc, List.append_eq,
      pySplit_sepfree_append u t hu]

theorem pySplit_replicate {sep : Char} (v : List Char) (hv : sep ∉ v) :
    ∀ j, pySplitChar sep (List.replicate j sep ++ v) = List.replicate j [] ++ [v]
  | 0 => by simpa using pySplit_sepfree hv
  | j + 1 => by
    simp [List.replicate_succ, pySplitChar, pySplit_replicate v hv j]

theorem fold_split_empties (sep : Char) (u : List Char) :
    ∀ (j m : Nat),
      List.foldl (splitStep sep) [u, List.replicate m sep] (List.replicate j []) =
        [u, List.replicate (m + j) sep]
  | 0, m => by simp
  | j + 1, m => by
    have hstep : splitStep sep [u, List.replicate m sep] [] =
        [u, List.replicate (m + 1) sep] := by
      match m with
      | 0 => simp [splitStep, List.replicate_succ']
      | m + 1 =>
        simp only [splitStep, List.replicate_succ]
        simp
        rw [← List.replicate_succ', ← List.replicate_succ]
    rw [List.replicate_succ, List.foldl_cons, hstep, fold_split_empties sep u j (m + 1)]
    have harith : m + 1 + j = m + (j + 1) := by omega
    rw [harith]

/-! ### Invariant lemmas for the sequential-set operations -/

theorem nodup_insertAt_list [DecidableEq α] (xs : List α) (i : Nat) (v : α)
    (hn : xs.Nodup) (hv : v ∉ xs) : (xs.take i ++ v :: xs.drop i).Nodup := by
  have hsplit : xs.take i ++ xs.drop i = xs := List.take_append_drop i xs
  have hnod2 : (xs.take i ++ xs.drop i).Nodup := by rw [hsplit]; exact hn
  rw [List.nodup_append] at hnod2
  rw [List.nodup_append]
  refine ⟨hnod2.1, ?_, ?_⟩
  · rw [List.nodup_cons]
    exact ⟨fun hm => hv (List.drop_subset i xs hm), hnod2.2.1⟩
  · intro x hx
    rw [List.mem_cons]
    rintro (rfl | hx2)
    · exact hv (List.take_subset i xs hx)
    · exact hnod2.2.2 hx hx2

theorem applyOps_nodup [DecidableEq α] (ops : List (SetOp α)) (xs : List α)
    (h : xs.Nodup) : (applyOps ops xs).Nodup := by
  induction ops generalizing xs with
  | nil => exact h
  | cons op rest ih =>
    cases op with
    | addO v => exact ih _ (nodup_addElem v h)
    | discardO v => exact ih _ (nodup_discardElem _ v h)

theorem contains_iff_history [DecidableEq α] (ops : List (SetOp α)) (x : α) :
    x ∈ applyOps ops [] ↔ (ops.filter (touches x)).getLast? = some (.addO x) := by
  induction ops using List.reverseRecOn with
  | nil => simp [applyOps]
  | append_singleton ops op ih =>
    have hnod : (applyOps ops []).Nodup := applyOps_nodup ops [] (by simp)
    have happ : applyOps (ops ++ [op]) [] = applyOp (applyOps ops []) op := by
      unfold applyOps
      rw [List.foldl_append]
      rfl
    rw [happ, List.filter_append]
    cases op with
    | addO v =>
      by_cases hvx : v = x
      · rw [hvx]
        have hf : (List.filter (touches x) [SetOp.addO x]) = [SetOp.addO x] := by
          simp [touches]
        rw [hf, List.getLast?_concat]
        simp [applyOp, mem_addElem]
      · have hf : (List.filter (touches x) [SetOp.addO v]) = [] := by
          simp [touches, hvx]
        rw [hf, List.append_nil]
        rw [← ih]
        simp only [applyOp, mem_addElem]
        constructor
        · rintro (h1 | rfl)
          · exact h1
          · exact absurd rfl hvx
        · exact Or.inl
    | discardO v =>
      by_cases hvx : v = x
      · rw [hvx]
        have hf : (List.filter (touches x) [SetOp.discardO x]) = [SetOp.discardO x] := by
          simp [touches]
        rw [hf, List.getLast?_concat]
        simp only [applyOp]
        rw [mem_discardElem hnod]
        simp
      · have hf : (List.filter (touches x) [SetOp.discardO v]) = [] := by
          simp [touches, hvx]
        rw [hf, List.append_nil, ← ih]
        simp only [applyOp]
        rw [mem_discardElem hnod]
        constructor
        · exact And.left
        · intro h1
          exact ⟨h1, fun hc => hvx hc.symm⟩

/-! ### `scan_token` characterization lemmas -/

theorem scanFold_append (src : List Char) (i : Nat) (ps : List (String × Scanner))
    (p : String × Scanner) :
    scanFold src i (ps ++ [p]) = scanStep src i (scanFold src i ps) p := by
  unfold scanFold
  rw [List.foldl_append]
  rfl

theorem scanStep_none_eq (src : List Char) (i : Nat) (acc : Option (String × Nat))
    {p : String × Scanner} (hp : p.2 src i = none) : scanStep src i acc p = acc := by
  unfold scanStep
  rw [hp]

theorem scanStep_some_isSome (src : List Char) (i : Nat) (acc : Option (String × Nat))
    {p : String × Scanner} {len : Nat} (hp : p.2 src i = some len) :
    (scanStep src i acc p).isSome := by
  unfold scanStep
  rw [hp]
  match acc with
  | none => rfl
  | some q =>
    dsimp only
    by_cases hlt : q.2 < len
    · rw [if_pos hlt]; rfl
    · rw [if_neg hlt]; rfl

theorem scanFold_none_iff (src : List Char) (i : Nat) :
    ∀ ps : List (String × Scanner),
      scanFold src i ps = none ↔ ∀ p ∈ ps, p.2 src i = none := by
  intro ps
  induction ps using List.reverseRecOn with
  | nil => simp [scanFold]
  | append_singleton ps p ih =>
    rw [scanFold_append]
    constructor
    · intro h q hq
      match hp : p.2 src i with
      | none =>
        have hacc : scanFold src i ps = none := by
          rw [scanStep_none_eq src i _ hp] at h
          exact h
        rcases List.mem_append.mp hq with hq1 | hq2
        · exact (ih.mp hacc) q hq1
        · rw [List.mem_singleton.mp hq2]
          exact hp
      | some len =>
        exfalso
        have := scanStep_some_isSome src i (scanFold src i ps) hp
        rw [h] at this
        cases this
    · intro h
      have hp : p.2 src i = none := h p (by simp)
      have hacc : scanFold src i ps = none := ih.mpr fun q hq => h q (by simp [hq])
      rw [scanStep_none_eq src i _ hp, hacc]

theorem scanStep_fresh (src : List Char) (i : Nat) {p : String × Scanner} {len : Nat}
    (hp : p.2 src i = some len) : scanStep src i none p = some (p.1, len) := by
  unfold scanStep
  rw [hp]

theorem scanStep_beats (src : List Char) (i : Nat) {p : String × Scanner} {len : Nat}
    (q : String × Nat) (hp : p.2 src i = some len) (hq : q.2 < len) :
    scanStep src i (some q) p = some (p.1, len) := by
  unfold scanStep
  rw [hp]
  dsimp only
  rw [if_pos hq]

theorem scanStep_keeps (src : List Char) (i : Nat) {p : String × Scanner} {len : Nat}
    (q : String × Nat) (hp : p.2 src i = some len) (hq : ¬q.2 < len) :
    scanStep src i (some q) p = some q := by
  unfold scanStep
  rw [hp]
  dsimp only
  rw [if_neg hq]

theorem scanFold_some_spec (src : List Char) (i : Nat) :
    ∀ (ps : List (String × Scanner)) (t : String) (L : Nat),
      scanFold src i ps = some (t, L) →
      ∃ k, ∃ hk : k < ps.length,
        (ps.get ⟨k, hk⟩).1 = t ∧ (ps.get ⟨k, hk⟩).2 src i = some L
        ∧ (∀ m, ∀ hm : m < ps.length, ∀ L2 : Nat,
            (ps.get ⟨m, hm⟩).2 src i = some L2 → L2 ≤ L)
        ∧ (∀ m, ∀ hm : m < ps.length, ∀ L2 : Nat, m < k →
            (ps.get ⟨m, hm⟩).2 src i = some L2 → L2 < L) := by
  intro ps
  induction ps using List.reverseRecOn with
  | nil => intro t L h; cases h
  | append_singleton ps p ih =>
    intro t L h
    rw [scanFold_append] at h
    have hlen : (ps ++ [p]).length = ps.length + 1 := by simp
    have hget : ∀ m, ∀ hm : m < ps.length, ∀ hm2 : m < (ps ++ [p]).length,
        (ps ++ [p]).get ⟨m, hm2⟩ = ps.get ⟨m, hm⟩ := by
      intro m hm hm2
      simp only [List.get_eq_getElem]
      exact List.getElem_append_left hm
    have hgetp : ∀ hm2 : ps.length < (ps ++ [p]).length,
        (ps ++ [p]).get ⟨ps.length, hm2⟩ = p := by
      intro hm2
      simp only [List.get_eq_getElem]
      exact List.getElem_concat_length ps p ps.length rfl _
    match hp : p.2 src i with
    | none =>
      rw [scanStep_none_eq src i _ hp] at h
      obtain ⟨k, hk, h1, h2, h3, h4⟩ := ih t L h
      refine ⟨k, by omega, ?_, ?_, ?_, ?_⟩
      · rw [hget k hk]; exact h1
      · rw [hget k hk]; exact h2
      · intro m hm L2 hL2
        by_cases hmlt : m < ps.length
        · rw [hget m hmlt] at hL2
          exact h3 m hmlt L2 hL2
        · have hmeq : m = ps.length := by omega
          subst hmeq
          rw [hgetp, hp] at hL2
          cases hL2
      · intro m hm L2 hmk hL2
        have hmlt : m < ps.length := Nat.lt_trans hmk hk
        rw [hget m hmlt] at hL2
        exact h4 m hmlt L2 hmk hL2
    | some len =>
      match hacc : scanFold src i ps with
      | none =>
        rw [hacc, scanStep_fresh src i hp] at h
        cases h
        have hall := (scanFold_none_iff src i ps).mp hacc
        refine ⟨ps.length, by omega, ?_, ?_, ?_, ?_⟩
        · rw [hgetp]
        · rw [hgetp]; exact hp
        · intro m hm L2 hL2
          by_cases hmlt : m < ps.length
          · rw [hget m hmlt] at hL2
            rw [hall _ (List.get_mem ps m hmlt)] at hL2
            cases hL2
          · have hmeq : m = ps.length := by omega
            subst hmeq
            rw [hgetp, hp] at hL2
            cases hL2
            exact Nat.le_refl _
        · intro m hm L2 hmk hL2
          rw [hget m hmk] at hL2
          rw [hall _ (List.get_mem ps m hmk)] at hL2
          cases hL2
      | some q =>
        obtain ⟨k, hk, h1, h2, h3, h4⟩ := ih q.1 q.2 (by rw [hacc])
        by_cases hlt : q.2 < len
        · rw [hacc, scanStep_beats src i q hp hlt] at h
          cases h
          refine ⟨ps.length, by omega, ?_, ?_, ?_, ?_⟩
          · rw [hgetp]
          · rw [hgetp]; exact hp
          · intro m hm L2 hL2
            by_cases hmlt : m < ps.length
            · rw [hget m hmlt] at hL2
              exact Nat.le_of_lt (Nat.lt_of_le_of_lt (h3 m hmlt L2 hL2) hlt)
            · have hmeq : m = ps.length := by omega
              subst hmeq
              rw [hgetp, hp] at hL2
              cases hL2
              exact Nat.le_refl _
          · intro m hm L2 hmk hL2
            have hmlt : m < ps.length := by omega
            rw [hget m hmlt] at hL2
            exact Nat.lt_of_le_of_lt (h3 m hmlt L2 hL2) hlt
        · rw [hacc, scanStep_keeps src i q hp hlt] at h
          rw [h] at hacc
          obtain ⟨k, hk, h1, h2, h3, h4⟩ := ih t L hacc
          refine ⟨k, by omega, ?_, ?_, ?_, ?_⟩
          · rw [hget k hk]; exact h1
          · rw [hget k hk]; exact h2
          · intro m hm L2 hL2
            by_cases hmlt : m < ps.length
            · rw [hget m hmlt] at hL2
              exact h3 m hmlt L2 hL2
            · have hmeq : m = ps.length := by omega
              subst hmeq
              rw [hgetp, hp] at hL2
              cases hL2
              have hqtl : q = (t, L) := Option.some_injective _ h
              have hqL : q.2 = L := by rw [hqtl]
              omega
          · intro m hm L2 hmk hL2
            have hmlt : m < ps.length := Nat.lt_trans hmk hk
            rw [hget m hmlt] at hL2
            exact h4 m hmlt L2 hmk hL2

/-! ### ACTION-table conflict lemmas -/

theorem foldl_insChecked_error (l : List (ActKey × PAction)) :
    l.foldl insChecked (.error ()) = .error () := by
  induction l with
  | nil => rfl
  | cons e r ih => simpa [insChecked] using ih

theorem lookupA_isSome_iff [DecidableEq κ] (l : List (κ × β)) (k : κ) :
    (lookupA l k).isSome ↔ k ∈ l.map Prod.fst := by
  induction l with
  | nil => simp [lookupA]
  | cons e r ih =>
    by_cases he : e.1 = k
    · simp [lookupA, he]
    · simp only [lookupA, if_neg he, List.map_cons, List.mem_cons, ih]
      constructor
      · exact Or.inr
      · rintro (h1 | h2)
        · exact absurd h1.symm he
        · exact h2

theorem foldl_insChecked_key_clash (l : List (ActKey × PAction)) :
    ∀ (m : List (ActKey × PAction)) (k : ActKey), k ∈ m.map Prod.fst →
      k ∈ l.map Prod.fst → l.foldl insChecked (.ok m) = .error () := by
  induction l with
  | nil => intro m k _ hl; simp at hl
  | cons e r ih =>
    intro m k hm hl
    rw [List.foldl_cons]
    by_cases hlk : (lookupA m e.1).isSome
    · have : insChecked (.ok m) e = .error () := by simp [insChecked, hlk]
      rw [this, foldl_insChecked_error]
    · have hstep : insChecked (.ok m) e = .ok (m ++ [e]) := by
        simp [insChecked, hlk]
      rw [hstep]
      rw [List.map_cons, List.mem_cons] at hl
      rcases hl with h1 | h2
      · exfalso
        apply hlk
        rw [lookupA_isSome_iff]
        rw [h1] at hm
        exact hm
      · exact ih (m ++ [e]) k (by simp [hm]) h2

theorem foldl_insChecked_dup (l : List (ActKey × PAction)) :
    ∀ (m : List (ActKey × PAction)) (a b : Nat), ∀ ha : a < l.length, ∀ hb : b < l.length,
      a < b → (l.get ⟨a, ha⟩).1 = (l.get ⟨b, hb⟩).1 →
      l.foldl insChecked (.ok m) = .error () := by
  induction l with
  | nil => intro m a b ha _ _ _; cases ha
  | cons e r ih =>
    intro m a b ha hb hab hkey
    match b, hb with
    | b2 + 1, hb =>
      rw [List.foldl_cons]
      by_cases hlk : (lookupA m e.1).isSome
      · have : insChecked (.ok m) e = .error () := by simp [insChecked, hlk]
        rw [this, foldl_insChecked_error]
      · have hstep : insChecked (.ok m) e = .ok (m ++ [e]) := by
          simp [insChecked, hlk]
        rw [hstep]
        match a, ha with
        | 0, _ =>
          have hbr : b2 < r.length := by simpa using hb
          have hget : ((e :: r).get ⟨b2 + 1, hb⟩) = r.get ⟨b2, hbr⟩ := rfl
          have hkm : e.1 ∈ (m ++ [e]).map Prod.fst := by simp
          have hkr : e.1 ∈ r.map Prod.fst := by
            have hke : e.1 = (r.get ⟨b2, hbr⟩).1 := by simpa [hget] using hkey
            rw [hke]
            exact List.mem_map.mpr ⟨r.get ⟨b2, hbr⟩, List.get_mem r b2 hbr, rfl⟩
          exact foldl_insChecked_key_clash r (m ++ [e]) e.1 hkm hkr
        | a2 + 1, ha =>
          have har : a2 < r.length := by simpa using ha
          have hbr : b2 < r.length := by simpa using hb
          exact ih (m ++ [e]) a2 b2 har hbr (by omega) hkey

/-! ### Fuel monotonicity

The Python loops have no fuel; these lemmas show that once a fueled
embedding completes, more fuel cannot change its result, so the fueled
functions are a faithful picture of the terminating Python runs. -/

theorem iterO_mono {σ ρ : Type} (f g : σ → Option (σ ⊕ ρ))
    (hfg : ∀ s x, f s = some x → g s = some x) :
    ∀ (n m : Nat) (s : σ) (r : ρ), n ≤ m → iterO f n s = some r → iterO g m s = some r := by
  intro n
  induction n with
  | zero => intro m s r _ h; cases h
  | succ n ih =>
    intro m s r hnm h
    match m, hnm with
    | m + 1, hnm =>
      unfold iterO at h ⊢
      match hf : f s with
      | none => rw [hf] at h; cases h
      | some (.inr r2) =>
        rw [hf] at h
        rw [hfg s _ hf]
        exact h
      | some (.inl s2) =>
        rw [hf] at h
        rw [hfg s _ hf]
        exact ih m s2 r (by omega) h

theorem mapMO_mono (f g : α → Option β) (hfg : ∀ a b, f a = some b → g a = some b) :
    ∀ (l : List α) (r : List β), mapMO f l = some r → mapMO g l = some r := by
  intro l
  induction l with
  | nil => intro r h; exact h
  | cons a rest ih =>
    intro r h
    unfold mapMO at h ⊢
    match hfa : f a, hrest : mapMO f rest with
    | some b, some bs =>
      rw [hfa, hrest] at h
      rw [hfg a b hfa, ih bs hrest]
      exact h
    | some b, none => rw [hfa, hrest] at h; cases h
    | none, _ => rw [hfa] at h; cases h

theorem prefixesF_mono (rules : List GRule) (n m : Nat) (p : PrefMap) (hnm : n ≤ m)
    (h : prefixesF n rules = some p) : prefixesF m rules = some p :=
  iterO_mono _ _ (fun _ _ hx => hx) n m _ p hnm h

theorem closureF_mono (g : Grammar) (tbl : PrefMap) (core : List LR1Item) (n m : Nat)
    (c : List LR1Item) (hnm : n ≤ m) (h : closureF n g tbl core = some c) :
    closureF m g tbl core = some c :=
  iterO_mono _ _ (fun _ _ hx => hx) n m _ c hnm h

theorem isetStep_mono (g : Grammar) (tbl : PrefMap) (n m : Nat) (hnm : n ≤ m) :
    ∀ s x, isetStep n g tbl s = some x → isetStep m g tbl s = some x := by
  rintro ⟨sets, gotos, i⟩ x h
  unfold isetStep at h ⊢
  dsimp only at h ⊢
  by_cases hi : i < sets.length
  · rw [if_pos hi] at h ⊢
    match hc : closureF n g tbl (sets.getD i []) with
    | none => rw [hc] at h; cases h
    | some closed =>
      rw [hc] at h
      rw [closureF_mono g tbl _ n m closed hnm hc]
      exact h
  · rw [if_neg hi] at h ⊢
    exact h

theorem buildItemSets_mono (g : Grammar) (tbl : PrefMap) (root : String) (n m : Nat)
    (r : List (List LR1Item) × GotoMap) (hnm : n ≤ m)
    (h : buildItemSets n g tbl root = some r) : buildItemSets m g tbl root = some r :=
  iterO_mono _ _ (isetStep_mono g tbl n m hnm) n m _ r hnm h

theorem buildTables_mono (g : Grammar) (root : String) (n m : Nat)
    (r : Except Unit (GotoMap × List (ActKey × PAction))) (hnm : n ≤ m)
    (h : buildTables n g root = some r) : buildTables m g root = some r := by
  unfold buildTables at h ⊢
  match hp : prefixesF n g.ruleList with
  | none => rw [hp] at h; cases h
  | some tbl =>
    rw [hp] at h
    rw [prefixesF_mono g.ruleList n m tbl hnm hp]
    dsimp only at h ⊢
    match hs : buildItemSets n g tbl root with
    | none => rw [hs] at h; cases h
    | some (sets, gotos) =>
      rw [hs] at h
      rw [buildItemSets_mono g tbl root n m (sets, gotos) hnm hs]
      dsimp only at h ⊢
      match hc : mapMO (closureF n g tbl) sets with
      | none => rw [hc] at h; cases h
      | some closures =>
        rw [hc] at h
        rw [mapMO_mono _ _ (fun core c hx => closureF_mono g tbl core n m c hnm hx) sets
          closures hc]
        exact h

theorem buildTables_unique (g : Grammar) (root : String) (n m : Nat)
    (r1 r2 : Except Unit (GotoMap × List (ActKey × PAction)))
    (h1 : buildTables n g root = some r1) (h2 : buildTables m g root = some r2) :
    r1 = r2 := by
  have hm1 := buildTables_mono g root n (Nat.max n m) r1 (Nat.le_max_left n m) h1
  have hm2 := buildTables_mono g root m (Nat.max n m) r2 (Nat.le_max_right n m) h2
  rw [hm1] at hm2
  exact Option.some_injective _ hm2

/-! ### Driver-termination helper lemmas -/

theorem lookupA_mem [DecidableEq κ] :
    ∀ (l : List (κ × β)) (k : κ) (v : β), lookupA l k = some v → (k, v) ∈ l := by
  intro l
  induction l with
  | nil => intro k v h; cases h
  | cons e r ih =>
    intro k v h
    unfold lookupA at h
    by_cases he : e.1 = k
    · rw [if_pos he] at h
      have hv : e.2 = v := Option.some_injective _ h
      have hkv : (k, v) = e := by rw [← he, ← hv]
      rw [hkv]
      exact List.mem_cons_self e r
    · rw [if_neg he] at h
      exact List.mem_cons_of_mem e (ih k v h)

theorem scanToken_ok_start (ps : List (String × Scanner)) (src : List Char) (q : Nat)
    (t : Option String) (a b : Nat) (h : scanToken ps src q = .ok (t, a, b)) : a = q := by
  unfold scanToken at h
  by_cases hq : src.length ≤ q
  · rw [if_pos hq] at h
    cases h
    rfl
  · rw [if_neg hq] at h
    match hF : scanFold src q ps with
    | none => rw [hF] at h; cases h
    | some p =>
      rw [hF] at h
      cases h
      rfl

theorem scanToken_some_inbounds (ps : List (String × Scanner)) (src : List Char) (q : Nat)
    (t : String) (a b : Nat) (h : scanToken ps src q = .ok (some t, a, b)) :
    q < src.length := by
  unfold scanToken at h
  by_cases hq : src.length ≤ q
  · rw [if_pos hq] at h
    cases h
  · rw [if_neg hq] at h
    omega

/-- Every driver step that continues strictly decreases the measure
`driverMu` and preserves the scan invariant, provided: no shift action is
keyed on the null lookahead, every reduce rule has a body of length at
least two, and every successful non-null scan strictly consumes input. -/
theorem stepD_next_mu (ps : List (String × Scanner)) (acts : List (ActKey × PAction))
    (gotos : GotoMap) (src : List Char)
    (Hshift : ∀ e ∈ acts, (match e with
        | ((_, (none : Option String)), PAction.shift _) => False
        | _ => True))
    (Hred : ∀ e ∈ acts, (match e.2 with
        | PAction.reduce r => 2 ≤ r.body.length
        | _ => True))
    (Hscan : ∀ q, q < src.length → (match scanToken ps src q with
        | .ok (some _, a2, b2) => a2 < b2
        | _ => True))
    (st st2 : PState)
    (hinv : st.tok.isSome → st.i < src.length ∧ st.i < st.j)
    (hstep : stepD ps acts gotos src st = .next st2) :
    driverMu src st2 < driverMu src st
    ∧ (st2.tok.isSome → st2.i < src.length ∧ st2.i < st2.j) := by
  obtain ⟨stack, tok, i, j⟩ := st
  match stack with
  | [] =>
    exfalso
    unfold stepD at hstep
    dsimp only at hstep
    cases hstep
  | Cell.nd nd0 :: rest =>
    exfalso
    unfold stepD at hstep
    dsimp only at hstep
    cases hstep
  | Cell.st s :: rest =>
    match hact : lookupA acts (s, tok) with
    | none =>
      exfalso
      unfold stepD at hstep
      dsimp only at hstep
      rw [hact] at hstep
      dsimp only at hstep
      cases hstep
    | some (PAction.shift target) =>
      unfold stepD at hstep
      dsimp only at hstep
      rw [hact] at hstep
      dsimp only at hstep
      cases tok with
      | none =>
        exfalso
        exact Hshift _ (lookupA_mem acts _ _ hact)
      | some t =>
        obtain ⟨hilt, hij⟩ := hinv (by simp)
        dsimp only at hilt hij
        match hscan2 : scanToken ps src j with
        | .error o =>
          exfalso
          rw [hscan2] at hstep
          dsimp only at hstep
          cases hstep
        | .ok (tok2, a2, b2) =>
          rw [hscan2] at hstep
          dsimp only at hstep
          cases hstep
          have ha2 : a2 = j := scanToken_ok_start ps src j tok2 a2 b2 hscan2
          constructor
          · simp only [driverMu, List.length_cons]
            omega
          · cases tok2 with
            | none => intro hbad; simp at hbad
            | some t2 =>
              intro _
              have hjlen : j < src.length :=
                scanToken_some_inbounds ps src j t2 a2 b2 hscan2
              have hq := Hscan j hjlen
              rw [hscan2] at hq
              dsimp only
              constructor
              · rw [ha2]
                exact hjlen
              · exact hq
    | some (PAction.reduce r) =>
      have hL : 2 ≤ r.body.length := Hred _ (lookupA_mem acts _ _ hact)
      unfold stepD at hstep
      dsimp only at hstep
      rw [hact] at hstep
      dsimp only at hstep
      rw [if_neg (by omega : ¬r.body.length = 0)] at hstep
      match hkeep : (Cell.st s :: rest).drop (2 * r.body.length) with
      | [] =>
        exfalso
        rw [hkeep] at hstep
        dsimp only at hstep
        cases hstep
      | Cell.nd _ :: _ =>
        exfalso
        rw [hkeep] at hstep
        dsimp only at hstep
        cases hstep
      | Cell.st gSt :: krest =>
        rw [hkeep] at hstep
        dsimp only at hstep
        match hhead : r.head with
        | none =>
          exfalso
          rw [hhead] at hstep
          dsimp only at hstep
          cases hstep
        | some hd =>
          rw [hhead] at hstep
          dsimp only at hstep
          match hg : lookupA gotos (gSt, hd) with
          | none =>
            exfalso
            rw [hg] at hstep
            dsimp only at hstep
            cases hstep
          | some g2 =>
            rw [hg] at hstep
            dsimp only at hstep
            match hns : cellNodes (evens ((Cell.st s :: rest).take (2 * r.body.length)).reverse) with
            | none =>
              exfalso
              rw [hns] at hstep
              dsimp only at hstep
              cases hstep
            | some ns =>
              rw [hns] at hstep
              dsimp only at hstep
              match hh : ns.head? with
              | none =>
                exfalso
                rw [hh] at hstep
                dsimp only at hstep
                cases hstep
              | some n1 =>
                match hl2 : ns.getLast? with
                | none =>
                  exfalso
                  rw [hh, hl2] at hstep
                  dsimp only at hstep
                  cases hstep
                | some nL =>
                  rw [hh, hl2] at hstep
                  dsimp only at hstep
                  cases hstep
                  have hklen : (Cell.st gSt :: krest).length
                      = (Cell.st s :: rest).length - 2 * r.body.length := by
                    rw [← hkeep, List.length_drop]
                  simp only [List.length_cons] at hklen
                  constructor
                  · simp only [driverMu, List.length_cons]
                    omega
                  · exact hinv
    | some PAction.accept =>
      exfalso
      unfold stepD at hstep
      dsimp only at hstep
      rw [hact] at hstep
      dsimp only at hstep
      match hacc : (Cell.st s :: rest).reverse[1]? with
      | some (Cell.nd n) => rw [hacc] at hstep; dsimp only at hstep; cases hstep
      | some (Cell.st n2) => rw [hacc] at hstep; dsimp only at hstep; cases hstep
      | none => rw [hacc] at hstep; dsimp only at hstep; cases hstep

/-! ## Claim theorems -/

/-- C3: if the ACTION-table construction produces two candidate entries
with the same `(state, lookahead)` key and distinct actions, then the
checked build aborts with the conflict error (the Python
`assert ... not in actions, "Conflict!"`), the lazily built tables come
out as that error, and `parse` can never return a tree for any input —
the conflict fires on the first table access, before any driver step. -/
theorem c3_conflict_fatal (g : Grammar) (root : String) (fuel : Nat) (tbl : PrefMap)
    (sets : List (List LR1Item)) (gotos : GotoMap) (closures : List (List LR1Item))
    (hpfx : prefixesF fuel g.ruleList = some tbl)
    (hsets : buildItemSets fuel g tbl root = some (sets, gotos))
    (hcls : mapMO (closureF fuel g tbl) sets = some closures)
    (hdup : ∃ a b, ∃ ha : a < (actionCandidates g gotos closures).length,
        ∃ hb : b < (actionCandidates g gotos closures).length, a < b
        ∧ ((actionCandidates g gotos closures).get ⟨a, ha⟩).1
            = ((actionCandidates g gotos closures).get ⟨b, hb⟩).1
        ∧ ((actionCandidates g gotos closures).get ⟨a, ha⟩).2
            ≠ ((actionCandidates g gotos closures).get ⟨b, hb⟩).2) :
    checkedBuild (actionCandidates g gotos closures) = .error ()
    ∧ buildTables fuel g root = some (.error ())
    ∧ ∀ (src : List Char) (off : Nat) (n : PNode), ratParse fuel g root src off ≠ .tree n := by
  obtain ⟨a, b, ha, hb, hab, hkey, _⟩ := hdup
  have h1 : checkedBuild (actionCandidates g gotos closures) = .error () :=
    foldl_insChecked_dup _ [] a b ha hb hab hkey
  have h2 : buildTables fuel g root = some (.error ()) := by
    unfold buildTables
    rw [hpfx]
    dsimp only
    rw [hsets]
    dsimp only
    rw [hcls]
    dsimp only
    rw [h1]
    rfl
  refine ⟨h1, h2, ?_⟩
  intro src off n hbad
  unfold ratParse at hbad
  match hscan : scanToken g.tokenParsers src off with
  | .error o => rw [hscan] at hbad; cases hbad
  | .ok (tok, x, y) =>
    rw [hscan, h2] at hbad
    cases hbad

/-- Witness for C3: the reduce-reduce-conflicted grammar
`S -> A | B, A -> x, B -> x` has two reduce candidates on the same
`(state, None)` key; its table build yields the conflict error and
parsing `"x"` yields no tree. -/
theorem c3_conflict_fatal_witness :
    buildTables 60 conflictSyn "S" = some (.error ())
    ∧ ratParse 60 conflictSyn "S" "x".toList 0 ≠ .tree (PNode.leaf none 0 0 []) := by
  have h := c3_conflict_fatal conflictSyn "S" 60
    ((prefixesF 60 conflictSyn.ruleList).getD [])
    ((buildItemSets 60 conflictSyn ((prefixesF 60 conflictSyn.ruleList).getD []) "S").getD
      ([], [])).1
    ((buildItemSets 60 conflictSyn ((prefixesF 60 conflictSyn.ruleList).getD []) "S").getD
      ([], [])).2
    ((mapMO (closureF 60 conflictSyn ((prefixesF 60 conflictSyn.ruleList).getD []))
      ((buildItemSets 60 conflictSyn ((prefixesF 60 conflictSyn.ruleList).getD []) "S").getD
        ([], [])).1).getD [])
    rfl rfl rfl
    ⟨3, 4, by decide, by decide, by decide, by decide, by decide⟩
  exact ⟨h.2.1, h.2.2 "x".toList 0 (PNode.leaf none 0 0 [])⟩

/-- The tables built for `loopSyn` stabilize at fuel 30. -/
theorem loopTables_concrete :
    buildTables 30 loopSyn "S" = some (.ok (loopGotos, loopActs)) := rfl

/-- On input `"@"` every driver step from a state-1 top is a shift of the
zero-length `""` token back to state 1, consuming nothing: the loop spins
until the fuel runs out, whatever the rest of the stack is. -/
theorem loop_spin : ∀ (fuel : Nat) (s : List Cell),
    runDriver loopSyn.tokenParsers loopActs loopGotos "@".toList fuel
      ⟨.st 1 :: s, some "", 0, 0⟩ = .fuelOut := by
  intro fuel
  induction fuel with
  | zero => intro s; rfl
  | succ n ih =>
    intro s
    exact ih (Cell.nd (PNode.leaf (some "") 0 0 []) :: Cell.st 1 :: s)

/-- C4 counterexample: the grammar `S -> "" S | x` builds conflict-free
tables, yet `parse("@")` never terminates — the zero-length `""` token is
shifted forever at offset 0 (a shift need NOT consume input), so for
every fuel the embedded run reports fuel exhaustion where the Python loop
runs forever. -/
theorem c4_loop_counterexample :
    buildTables 30 loopSyn "S" = some (.ok (loopGotos, loopActs))
    ∧ ∀ fuel : Nat, ratParse fuel loopSyn "S" "@".toList 0 = .fuelOut := by
  refine ⟨loopTables_concrete, ?_⟩
  intro fuel
  match hbt : buildTables fuel loopSyn "S" with
  | none =>
    unfold ratParse
    rw [show scanToken loopSyn.tokenParsers "@".toList 0 = .ok (some "", 0, 0) from rfl]
    rw [hbt]
  | some r =>
    have hr : r = .ok (loopGotos, loopActs) :=
      buildTables_unique loopSyn "S" fuel 30 r _ hbt loopTables_concrete
    subst hr
    unfold ratParse
    rw [show scanToken loopSyn.tokenParsers "@".toList 0 = .ok (some "", 0, 0) from rfl]
    rw [hbt]
    have hrun : runDriver loopSyn.tokenParsers loopActs loopGotos "@".toList fuel
        ⟨[.st 0], some "", 0, 0⟩ = .fuelOut := by
      match fuel with
      | 0 => rfl
      | n + 1 =>
        exact loop_spin n [Cell.nd (PNode.leaf (some "") 0 0 []), Cell.st 0]
    dsimp only
    rw [hrun]

/-- The fueled driver loop cannot exhaust fuel exceeding the measure, under
the hypotheses of `stepD_next_mu`. -/
theorem runDriver_no_fuelOut (ps : List (String × Scanner)) (acts : List (ActKey × PAction))
    (gotos : GotoMap) (src : List Char)
    (Hshift : ∀ e ∈ acts, (match e with
        | ((_, (none : Option String)), PAction.shift _) => False
        | _ => True))
    (Hred : ∀ e ∈ acts, (match e.2 with
        | PAction.reduce r => 2 ≤ r.body.length
        | _ => True))
    (Hscan : ∀ q, q < src.length → (match scanToken ps src q with
        | .ok (some _, a2, b2) => a2 < b2
        | _ => True)) :
    ∀ (fuel : Nat) (st : PState), driverMu src st < fuel →
      (st.tok.isSome → st.i < src.length ∧ st.i < st.j) →
      runDriver ps acts gotos src fuel st ≠ .fuelOut := by
  intro fuel
  induction fuel with
  | zero => intro st hmu _; omega
  | succ n ih =>
    intro st hmu hinv
    unfold runDriver
    match hstep : stepD ps acts gotos src st with
    | .done nd => intro hbad; cases hbad
    | .fail e => intro hbad; cases hbad
    | .next st2 =>
      obtain ⟨hdec, hinv2⟩ :=
        stepD_next_mu ps acts gotos src Hshift Hred Hscan st st2 hinv hstep
      exact ih st2 (by omega) hinv2

/-- C4 amended: `parse` need not terminate in general (a shift of a
zero-length token consumes nothing, see the counterexample), but it does
terminate — within fuel proportional to the input length — whenever every
successful non-null scan strictly consumes input, no shift action is keyed
on the null lookahead (true of every built table), and every reduce rule
has a body of length at least two (then each reduce pops `2*len(body)`
cells and pushes 2, strictly shrinking the stack). -/
theorem c4_parse_terminates_amended (ps : List (String × Scanner))
    (acts : List (ActKey × PAction)) (gotos : GotoMap) (src : List Char)
    (off fuel : Nat)
    (Hshift : ∀ e ∈ acts, (match e with
        | ((_, (none : Option String)), PAction.shift _) => False
        | _ => True))
    (Hred : ∀ e ∈ acts, (match e.2 with
        | PAction.reduce r => 2 ≤ r.body.length
        | _ => True))
    (Hscan : ∀ q, q < src.length → (match scanToken ps src q with
        | .ok (some _, a2, b2) => a2 < b2
        | _ => True))
    (hfuel : 7 * src.length + 10 ≤ fuel) :
    parseDriver ps acts gotos src off fuel ≠ .fuelOut := by
  unfold parseDriver
  match hscan : scanToken ps src off with
  | .error o => intro hbad; cases hbad
  | .ok (tok, a, b) =>
    apply runDriver_no_fuelOut ps acts gotos src Hshift Hred Hscan fuel
      ⟨[.st 0], tok, a, b⟩
    · simp only [driverMu, List.length_cons, List.length_nil]
      omega
    · intro hsome
      match tok, hsome with
      | some t, _ =>
        have ha : a = off := scanToken_ok_start ps src off (some t) a b hscan
        have hoff : off < src.length := scanToken_some_inbounds ps src off t a b hscan
        have hq := Hscan off hoff
        rw [hscan] at hq
        exact ⟨by rw [ha]; exact hoff, hq⟩

/-- Witness for C4's amended claim: the grammar `S -> a b` with
strictly-consuming keyword scanners and a length-2 body; its parse of
`"ab"` cannot exhaust a fuel of 200. -/
theorem c4_parse_terminates_amended_witness :
    parseDriver abSyn.tokenParsers abActs abGotos "ab".toList 0 200 ≠ .fuelOut := by
  apply c4_parse_terminates_amended abSyn.tokenParsers abActs abGotos "ab".toList 0 200
  · intro e he
    fin_cases he
    · exact trivial
    · exact trivial
    · exact trivial
    · exact trivial
  · intro e he
    fin_cases he
    · exact trivial
    · exact trivial
    · exact trivial
    · exact (by decide : (2 : Nat) ≤ (["a", "b"] : List String).length)
  · intro q hq
    have hlen : ("ab".toList).length = 2 := rfl
    have hq2 : q = 0 ∨ q = 1 := by omega
    rcases hq2 with rfl | rfl
    · exact (by decide : (0 : Nat) < 1)
    · exact (by decide : (1 : Nat) < 2)
  · decide

/-- C6: `scan_token` returns the null terminal with an empty span at or
past the end of the input; otherwise it returns `.ok` exactly when some
scanner matches, the span starts at the offset, and the winning token
comes from a scanner whose reported length is maximal among all scanners,
with every earlier-registered scanner reporting strictly less (so ties go
to the earliest); it raises the tokenization error carrying the offset
exactly when every scanner reports no match. -/
theorem c6_scan_token (ps : List (String × Scanner)) (src : List Char) (i : Nat) :
    (src.length ≤ i → scanToken ps src i = .ok (none, i, i))
    ∧ (i < src.length →
        ((scanToken ps src i = .error i ↔ ∀ p ∈ ps, p.2 src i = none)
         ∧ (∀ (t : String) (a b : Nat), scanToken ps src i = .ok (some t, a, b) →
              a = i ∧ i ≤ b
              ∧ ∃ k, ∃ hk : k < ps.length,
                (ps.get ⟨k, hk⟩).1 = t ∧ (ps.get ⟨k, hk⟩).2 src i = some (b - i)
                ∧ (∀ m, ∀ hm : m < ps.length, ∀ L2 : Nat,
                    (ps.get ⟨m, hm⟩).2 src i = some L2 → L2 ≤ b - i)
                ∧ (∀ m, ∀ hm : m < ps.length, ∀ L2 : Nat, m < k →
                    (ps.get ⟨m, hm⟩).2 src i = some L2 → L2 < b - i)))) := by
  constructor
  · intro h
    unfold scanToken
    rw [if_pos h]
  · intro h
    have hni : ¬src.length ≤ i := by omega
    constructor
    · match hF : scanFold src i ps with
      | none =>
        constructor
        · intro _
          exact (scanFold_none_iff src i ps).mp hF
        · intro _
          unfold scanToken
          rw [if_neg hni, hF]
      | some q =>
        constructor
        · intro hbad
          exfalso
          unfold scanToken at hbad
          rw [if_neg hni, hF] at hbad
          cases hbad
        · intro hall
          exfalso
          rw [(scanFold_none_iff src i ps).mpr hall] at hF
          cases hF
    · intro t a b heq
      unfold scanToken at heq
      rw [if_neg hni] at heq
      match hF : scanFold src i ps with
      | none => rw [hF] at heq; cases heq
      | some q =>
        rw [hF] at heq
        have hinj : (some q.1, i, i + q.2) = (some t, a, b) := by
          have : q = (q.1, q.2) := rfl
          rw [this] at hF
          exact Except.ok.inj (by rw [← heq])
        have ht : q.1 = t := by
          have := congrArg Prod.fst hinj
          simpa using this
        have ha : a = i := by
          have := congrArg (fun x => x.2.1) hinj
          simpa using this.symm
        have hb : b = i + q.2 := by
          have := congrArg (fun x => x.2.2) hinj
          simpa using this.symm
        refine ⟨ha, by omega, ?_⟩
        have hbi : b - i = q.2 := by omega
        rw [hbi, ← ht]
        exact scanFold_some_spec src i ps q.1 q.2 (by rw [hF])

/-- Witness for C6 at concrete scanners: a tie on two-character keyword
scanners goes to the first-registered one, end-of-input yields the null
terminal, and an unmatched input is the tokenization error at the
offset. -/
theorem c6_scan_token_witness :
    scanToken c6ps "ab".toList 5 = .ok (none, 5, 5)
    ∧ scanToken c6ps "zz".toList 0 = .error 0
    ∧ ((0 : Nat) = 0 ∧ (0 : Nat) ≤ 2
        ∧ ∃ k, ∃ hk : k < c6ps.length,
          (c6ps.get ⟨k, hk⟩).1 = "A" ∧ (c6ps.get ⟨k, hk⟩).2 "ab?".toList 0 = some (2 - 0)
          ∧ (∀ m, ∀ hm : m < c6ps.length, ∀ L2 : Nat,
              (c6ps.get ⟨m, hm⟩).2 "ab?".toList 0 = some L2 → L2 ≤ 2 - 0)
          ∧ (∀ m, ∀ hm : m < c6ps.length, ∀ L2 : Nat, m < k →
              (c6ps.get ⟨m, hm⟩).2 "ab?".toList 0 = some L2 → L2 < 2 - 0)) := by
  refine ⟨(c6_scan_token c6ps "ab".toList 5).1 (by decide),
    ((c6_scan_token c6ps "zz".toList 0).2 (by decide)).1.mpr ?_,
    ((c6_scan_token c6ps "ab?".toList 0).2 (by decide)).2 "A" 0 2 rfl⟩
  intro p hp
  fin_cases hp <;> rfl

/-- C9: the sequential-set operations preserve duplicate-freeness;
construction (and hence iteration after any insertion sequence) keeps
exactly the first occurrence of each value in order (refinement against
the spec-side `specDedup`); `contains(x)` holds after a history of
add/discard operations iff the last operation touching `x` was an add;
positional delete keeps the survivors in their relative order (the result
is a sublist); and value-keyed removal swaps the last element into the
vacated slot, a reordering, with the result a permutation of the set
minus the removed value. -/
theorem c9_ordered_set_invariants [DecidableEq α] :
    (∀ xs : List α, dedupFirst xs = specDedup [] xs)
    ∧ (∀ xs : List α, (dedupFirst xs).Nodup)
    ∧ (∀ (xs : List α) (i : Nat) (r : List α), xs.Nodup → delAt xs i = .ok r →
        r.Nodup ∧ r.Sublist xs)
    ∧ (∀ (xs : List α) (i : Nat) (v : α) (r : List α), xs.Nodup → setAt xs i v = .ok r →
        r.Nodup)
    ∧ (∀ (xs : List α) (i : Nat) (v : α) (r : List α), xs.Nodup → insertAt xs i v = .ok r →
        r.Nodup)
    ∧ (∀ (xs : List α) (v : α), xs.Nodup → (addElem xs v).Nodup)
    ∧ (∀ (xs : List α) (v : α), xs.Nodup → (pushElem xs v).1.Nodup)
    ∧ (∀ (xs vs : List α), xs.Nodup → (updateSet xs vs).Nodup)
    ∧ (∀ (xs : List α) (v : α) (r : List α), xs.Nodup → removeSwap xs v = .ok r →
        r.Nodup ∧ r.Perm (xs.erase v))
    ∧ (∀ (xs : List α) (v : α), xs.Nodup → (discardElem xs v).Nodup)
    ∧ (∀ (ops : List (SetOp α)) (x : α),
        x ∈ applyOps ops [] ↔ (ops.filter (touches x)).getLast? = some (.addO x))
    ∧ (∀ (pre : List α) (v : α) (post : List α) (lastE : α), v ∉ pre →
        removeSwap (pre ++ v :: (post ++ [lastE])) v = .ok (pre ++ lastE :: post)) := by
  refine ⟨?_, ?_, ?_, ?_, ?_, ?_, ?_, ?_, ?_, ?_, ?_, ?_⟩
  · intro xs
    simpa using dedupFirst_go xs []
  · intro xs
    exact nodup_foldl_addElem xs [] List.nodup_nil
  · intro xs i r hn h
    unfold delAt at h
    by_cases hi : i < xs.length
    · rw [if_pos hi] at h
      cases h
      exact ⟨(List.eraseIdx_sublist xs i).nodup hn, List.eraseIdx_sublist xs i⟩
    · rw [if_neg hi] at h
      cases h
  · intro xs i v r hn h
    unfold setAt at h
    match hg : xs[i]? with
    | none => rw [hg] at h; cases h
    | some old =>
      rw [hg] at h
      dsimp only at h
      by_cases heq : v = old
      · rw [if_pos heq] at h
        cases h
        exact hn
      · rw [if_neg heq] at h
        by_cases hm : v ∈ xs
        · rw [if_pos hm] at h; cases h
        · rw [if_neg hm] at h
          cases h
          exact nodup_set_of_not_mem xs i v hn hm
  · intro xs i v r hn h
    unfold insertAt at h
    by_cases hm : v ∈ xs
    · rw [if_pos hm] at h; cases h
    · rw [if_neg hm] at h
      cases h
      exact nodup_insertAt_list xs i v hn hm
  · intro xs v hn
    exact nodup_addElem v hn
  · intro xs v hn
    unfold pushElem
    by_cases hm : v ∈ xs
    · have hlt : xs.indexOf v < xs.length := List.indexOf_lt_length.mpr hm
      simp only [if_pos hm, Nat.ne_of_lt hlt, if_neg]
      exact hn
    · simp only [if_neg hm, if_pos rfl]
      simp [List.nodup_append, hn, hm]
  · intro xs vs hn
    exact nodup_foldl_addElem vs xs hn
  · intro xs v r hn h
    have hp := removeSwap_perm xs v r hn h
    exact ⟨hp.nodup_iff.mpr (hn.erase v), hp⟩
  · intro xs v hn
    exact nodup_discardElem xs v hn
  · intro ops x
    exact contains_iff_history ops x
  · intro pre v post lastE hv
    exact removeSwap_concat pre v post lastE hv

/-- Witness for C9 at concrete inputs. -/
theorem c9_ordered_set_invariants_witness :
    dedupFirst [3, 1, 3, 2, 1] = specDedup [] [3, 1, 3, 2, 1]
    ∧ (2 ∈ applyOps [SetOp.addO 2, SetOp.addO 5, SetOp.discardO 2] []
        ↔ ([SetOp.addO 2, SetOp.addO 5, SetOp.discardO 2].filter (touches 2)).getLast?
            = some (.addO 2))
    ∧ removeSwap [9, 7, 8, 6] 7 = .ok [9, 6, 8] := by
  refine ⟨(c9_ordered_set_invariants (α := Nat)).1 [3, 1, 3, 2, 1],
    (c9_ordered_set_invariants (α := Nat)).2.2.2.2.2.2.2.2.2.2.1
      [SetOp.addO 2, SetOp.addO 5, SetOp.discardO 2] 2, ?_⟩
  have h := (c9_ordered_set_invariants (α := Nat)).2.2.2.2.2.2.2.2.2.2.2
    [9] 7 [8] 6 (by decide)
  simpa using h

/-- C10: `SequentialSet.index` cannot raise; an absent value, or a value
whose position lies outside `[start, stop)`, yields the sentinel `-1`; an
omitted `stop` behaves exactly like `stop = 2 ** 30`, so a position at or
beyond `2 ** 30` is reported as not found even with no `stop` given. -/
theorem c10_index_sentinel [DecidableEq α] (xs : List α) (v : α) (start : Nat) :
    (indexS xs v start none = indexS xs v start (some (2 ^ 30)))
    ∧ (v ∉ xs → indexS xs v start none = -1)
    ∧ (∀ stop : Option Nat, v ∈ xs →
        ¬((start : Int) ≤ (xs.indexOf v : Int)
          ∧ (xs.indexOf v : Int) < ((stop.getD (2 ^ 30) : Nat) : Int)) →
        indexS xs v start stop = -1)
    ∧ (2 ^ 30 ≤ xs.indexOf v → indexS xs v start none = -1) := by
  refine ⟨rfl, ?_, ?_, ?_⟩
  · intro h
    simp [indexS, h]
  · intro stop hv hno
    have hne : ((xs.indexOf v : Int)) ≠ -1 := by
      have : (0 : Int) ≤ (xs.indexOf v : Int) := Int.natCast_nonneg _
      omega
    simp only [indexS, if_pos hv]
    rw [if_neg]
    intro hc
    exact hno ⟨hc.2.1, hc.2.2⟩
  · intro h
    by_cases hv : v ∈ xs
    · have : ¬((xs.indexOf v : Int) < ((2 ^ 30 : Nat) : Int)) := by
        push_cast
        omega
      simp only [indexS, if_pos hv, Option.getD_none]
      rw [if_neg]
      intro hc
      exact this hc.2.2
    · simp [indexS, hv]

/-- Witness for C10 at concrete inputs. -/
theorem c10_index_sentinel_witness :
    indexS ["a", "b"] "c" 0 none = -1
    ∧ indexS ["a", "b"] "b" 2 none = -1
    ∧ indexS ["a", "b"] "b" 0 none = indexS ["a", "b"] "b" 0 (some (2 ^ 30)) := by
  refine ⟨(c10_index_sentinel ["a", "b"] "c" 0).2.1 (by decide),
    (c10_index_sentinel ["a", "b"] "b" 2).2.2.1 none (by decide) ?_,
    (c10_index_sentinel ["a", "b"] "b" 0).1⟩
  intro hc
  have : ((2 : Nat) : Int) ≤ ((["a", "b"].indexOf "b" : Nat) : Int) := hc.1
  have h1 : (["a", "b"].indexOf "b" : Nat) = 1 := by decide
  rw [h1] at this
  omega

/-- C7: `MutableSequentialSet.push` returns the existing position of a
present value and leaves the set unchanged; it appends an absent value and
returns the new last position; pushing the same value twice returns the
same index both times. -/
theorem c7_push_idempotent [DecidableEq α] (xs : List α) (v : α) (_hn : xs.Nodup) :
    (v ∈ xs → pushElem xs v = (xs, xs.indexOf v))
    ∧ (v ∉ xs → pushElem xs v = (xs ++ [v], xs.length))
    ∧ (pushElem (pushElem xs v).1 v).2 = (pushElem xs v).2 := by
  have hmem : ∀ h : v ∈ xs, pushElem xs v = (xs, xs.indexOf v) := by
    intro h
    have hlt : xs.indexOf v < xs.length := List.indexOf_lt_length.mpr h
    simp [pushElem, h, Nat.ne_of_lt hlt]
  have habs : ∀ _ : v ∉ xs, pushElem xs v = (xs ++ [v], xs.length) := by
    intro h
    simp [pushElem, h]
  refine ⟨hmem, habs, ?_⟩
  by_cases h : v ∈ xs
  · rw [hmem h, hmem h]
  · rw [habs h]
    have hm2 : v ∈ xs ++ [v] := by simp
    have hidx : (xs ++ [v]).indexOf v = xs.length := indexOf_append_cons xs v [] h
    have hne : xs.length ≠ (xs ++ [v]).length := by simp
    simp [pushElem, hm2, hidx, hne]

/-- Witness for C7 at concrete inputs. -/
theorem c7_push_idempotent_witness :
    pushElem ["a"] "a" = (["a"], 0)
    ∧ pushElem ["a"] "b" = (["a", "b"], 1)
    ∧ (pushElem (pushElem ["a"] "b").1 "b").2 = (pushElem ["a"] "b").2 := by
  refine ⟨?_, ?_, (c7_push_idempotent ["a"] "b" (by decide)).2.2⟩
  · have h := (c7_push_idempotent ["a"] "a" (by decide)).1 (by decide)
    rw [h]
    decide
  · have h := (c7_push_idempotent ["a"] "b" (by decide)).2.1 (by decide)
    rw [h]
    decide

/-- C2 (code bug): on a hashed `DynSet` every guarded mutator fails and
leaves the contents unchanged, but `DynSet.__setitem__` has no hash guard,
so a positional set after hashing SUCCEEDS and changes the contents; and
`freeze()` returns the `DynSet` itself, which is still mutable until its
first hash, so freezing alone does not make mutation fail. -/
theorem c2_dynset_immutability_gap :
    ((DynSet.mk' [1, 2]).hashOnce.setItem 0 5
      = .ok (⟨[5, 2], true⟩ : DynSet Nat))
    ∧ (DynSet.mk' [1, 2]).hashOnce.delItem 0 = .error .immut
    ∧ (DynSet.mk' [1, 2]).hashOnce.addD 3 = .error .immut
    ∧ (DynSet.mk' [1, 2]).hashOnce.insertD 0 3 = .error .immut
    ∧ (DynSet.mk' [1, 2]).hashOnce.pushD 3 = .error .immut
    ∧ (DynSet.mk' [1, 2]).hashOnce.removeD 1 = .error .immut
    ∧ (DynSet.mk' [1, 2]).hashOnce.discardD 1 = .error .immut
    ∧ DynSet.freeze (DynSet.mk' ([1] : List Nat)) = DynSet.mk' [1]
    ∧ (DynSet.mk' ([1] : List Nat)).freeze.addD 2 = .ok ⟨[1, 2], false⟩ :=
  ⟨rfl, rfl, rfl, rfl, rfl, rfl, rfl, rfl, rfl⟩

/-- C8: on the grammar `A -> ε | "x" B` (with `H -> t` so that `H` is a
head whose only rule has a single-terminal body), the `prefixes` fixpoint
puts the nullability marker in `prefixes[A]`, and `prefixes[H]` is exactly
the singleton of the terminal `t`. -/
theorem c8_prefixes_fixpoint :
    prefixesF 20 prefSynRules = some prefTableC8
    ∧ none ∈ lookupPref prefTableC8 "A"
    ∧ lookupPref prefTableC8 "H" = [some "t"] := by
  decide

/-- C5 counterexample: for a run of exactly two separator characters the
produced symbol is named by the EMPTY string, not by the two-character
run, so "one symbol whose name is that run of separator characters
itself" fails. -/
theorem c5_split_run_counterexample :
    splitStr "a  b".toList ' ' = ["a".toList, [], "b".toList]
    ∧ splitStr "a  b".toList ' ' ≠ ["a".toList, "  ".toList, "b".toList] := by
  decide

/-- C5 amended: a maximal run of `k ≥ 2` separators between two nonempty
separator-free words produces exactly one symbol between them, consisting
of `k - 2` separator characters (the outer two separators of the run act
as delimiters), not of the full run. -/
theorem c5_split_run_amended (u v : List Char) (sep : Char) (k : Nat)
    (hu : sep ∉ u) (hv : sep ∉ v) (hune : u ≠ []) (hvne : v ≠ []) (hk : 2 ≤ k) :
    splitStr (u ++ List.replicate k sep ++ v) sep
      = [u, List.replicate (k - 2) sep, v] := by
  obtain ⟨k2, rfl⟩ : ∃ k2, k = k2 + 2 := ⟨k - 2, by omega⟩
  have hsplit : pySplitChar sep (u ++ List.replicate (k2 + 2) sep ++ v)
      = u :: (List.replicate (k2 + 1) [] ++ [v]) := by
    have : u ++ List.replicate (k2 + 2) sep ++ v
        = u ++ sep :: (List.replicate (k2 + 1) sep ++ v) := by
      simp [List.replicate_succ]
    rw [this, pySplit_sepfree_append u _ hu, pySplit_replicate v hv]
  unfold splitStr
  rw [hsplit]
  have hstep1 : splitStep sep [] u = [u] := by
    unfold splitStep
    rw [if_neg (by simp [hune])]
    simp
  have hstep2 : splitStep sep [u] [] = [u, []] := by
    unfold splitStep
    rw [if_neg]
    · simp
    · rintro ⟨-, -, hbad⟩
      rcases hbad with hbad | hbad
      · exact hune (by simpa using hbad)
      · match u, hune with
        | c :: t, _ =>
          simp only [Option.getD_some, List.getLast?_singleton, List.take] at hbad
          have : c = sep := by simpa using hbad
          exact hu (by simp [this])
  have hstep3 : splitStep sep [u, List.replicate k2 sep] v
      = [u, List.replicate k2 sep, v] := by
    unfold splitStep
    rw [if_neg (by simp [hvne])]
    rfl
  have hrep : List.replicate (k2 + 1) ([] : List Char) ++ [v]
      = [] :: (List.replicate k2 [] ++ [v]) := by
    simp [List.replicate_succ]
  rw [List.foldl_cons, hstep1, hrep, List.foldl_cons, hstep2, List.foldl_append]
  have hfold := fold_split_empties sep u k2 0
  rw [List.replicate_zero, Nat.zero_add] at hfold
  rw [hfold, List.foldl_cons, List.foldl_nil, hstep3]
  have harith : k2 + 2 - 2 = k2 := by omega
  rw [harith]

/-- Witness for C5's amended claim: a run of three spaces yields the
single-space symbol. -/
theorem c5_split_run_amended_witness :
    splitStr ("a".toList ++ List.replicate 3 ' ' ++ "b".toList) ' '
      = ["a".toList, List.replicate 1 ' ', "b".toList] :=
  c5_split_run_amended "a".toList "b".toList ' ' 3 (by decide) (by decide)
    (by decide) (by decide) (by decide)

/-- C1 (code bug): parsing `"x=fuy"` with the demo grammar does not
produce the specified tree; the parse aborts with the unexpected-token
error at span `[1, 2)` on token `"="` (the state after `identifier`
expects only the implicit whitespace terminal `""`, which loses the
longest-match race to `"="`).  Moreover `parse_identifier` consumes at
most two characters, so `"fuy"` scans as `"fu"` (span `[2, 4)`), never as
the claimed `[2, 5)`. -/
theorem c1_demo_parse_crashes :
    ratParse 60 demoSyn "stmts" "x=fuy".toList 0
      = .perr (.unexpected 1 2 (some "="))
    ∧ scanToken demoSyn.tokenParsers "x=fuy".toList 2 = .ok (some "identifier", 2, 4)
    ∧ parseIdentifier "x=fuy".toList 2 = some 2 :=
  ⟨rfl, rfl, rfl⟩

end RatVerif
